import Mathlib

/-!
# Verification of the StarCluster codec pipeline (`starcluster/utils.py`)

This file gives a shallow embedding of the reversible codec pipeline in
`src/starcluster/utils.py`: `join`, `gzip_compress`, `gzip_decompress`,
`dump_compress_encode` and `decode_uncompress_load`, together with executable
models of the CPython library routines they call (`base64.b64encode`,
`base64.b64decode` with its default `validate=False`, `zlib.compress`,
`zlib.decompress`, `gzip.compress`, `gzip.decompress`, `json.dumps`,
`json.loads`, `pickle.dumps`, `pickle.loads`, and `bytes.decode("utf-8")`).

The embedding follows the Python-3 execution path of the source (the
`six.PY3` branches); the dead `six.PY2` branches are not modelled.  Python
`str` values are modelled as `List Char`, `bytes` as `List Nat` (each element
a byte value below 256, maintained by construction), and raised exceptions as
`Except PyErr`.
-/

namespace StarCluster

/-- The exception classes the modelled code can raise, as an enumeration. -/
inductive PyErr where
  | typeError
  | valueError
  | unicodeDecodeError
  | unicodeEncodeError
  | binasciiError
  | zlibError
  | jsonError
  | pickleError
deriving DecidableEq

/-- Python `bytes` are modelled as lists of byte values. -/
abbrev Bytes := List Nat

/-- Python `str` is modelled as a list of unicode scalar values. -/
abbrev Str := List Char

/-! ## A length-free byte encoding of naturals (used by the pickle model)

A little-endian base-128 varint: bytes below 128 terminate, bytes of the
form `128 + d` carry digit `d` and continue. -/

/-- Varint encoding worker; the fuel is an upper bound on the value, which
bounds the number of base-128 digits. -/
def encNatGo : Nat → Nat → List Nat
  | 0, n => [n % 128]
  | f + 1, n => if n < 128 then [n] else (128 + n % 128) :: encNatGo f (n / 128)

/-- Little-endian base-128 varint encoding of a natural number. -/
def encNat (n : Nat) : List Nat := encNatGo n n

/-- Varint decoding: returns the value and the unconsumed bytes. -/
def decNat : List Nat → Option (Nat × List Nat)
  | [] => none
  | b :: rest =>
    if b < 128 then some (b, rest)
    else match decNat rest with
      | some (m, r) => some ((b - 128) + 128 * m, r)
      | none => none

theorem decNat_encNatGo (f : Nat) : ∀ n, n ≤ f → ∀ rest,
    decNat (encNatGo f n ++ rest) = some (n, rest) := by
  induction f with
  | zero =>
    intro n hn rest
    interval_cases n
    simp [encNatGo, decNat]
  | succ f ih =>
    intro n hn rest
    by_cases h : n < 128
    · simp [encNatGo, decNat, h]
    · have hd : n / 128 ≤ f := by omega
      simp only [encNatGo, if_neg h, List.cons_append, decNat]
      rw [if_neg (by omega), ih (n / 128) hd rest]
      simp only [Option.some.injEq, Prod.mk.injEq, and_true]
      omega

theorem decNat_encNat (n : Nat) (rest : List Nat) :
    decNat (encNat n ++ rest) = some (n, rest) :=
  decNat_encNatGo n n (Nat.le_refl n) rest

theorem encNatGo_lt_256 (f : Nat) : ∀ n, ∀ b ∈ encNatGo f n, b < 256 := by
  induction f with
  | zero => intro n b hb; simp [encNatGo] at hb; omega
  | succ f ih =>
    intro n b hb
    by_cases h : n < 128
    · simp [encNatGo, h] at hb; omega
    · simp only [encNatGo, if_neg h, List.mem_cons] at hb
      rcases hb with hb | hb
      · omega
      · exact ih _ b hb

theorem encNat_lt_256 (n : Nat) : ∀ b ∈ encNat n, b < 256 :=
  encNatGo_lt_256 n n

/-! ## Decimal digits (used by the json model for integers) -/

/-- The decimal digit character for `d < 10`. -/
def digitC (d : Nat) : Char := Char.ofNat (48 + d)

/-- Decimal printing worker, fuelled by an upper bound on the value. -/
def natDigsGo : Nat → Nat → List Char
  | 0, n => [digitC (n % 10)]
  | f + 1, n => if n < 10 then [digitC n] else natDigsGo f (n / 10) ++ [digitC (n % 10)]

/-- Decimal representation of a natural number, most significant digit
first, as emitted by Python `repr` on a non-negative `int`. -/
def natDigs (n : Nat) : List Char := natDigsGo n n

/-- Is `c` a decimal digit? -/
def isDigit (c : Char) : Bool := decide ('0' ≤ c ∧ c ≤ '9')

/-- Consume a maximal run of decimal digits, folding them into `acc`. -/
def parseDigits : List Char → Nat → Nat × List Char
  | [], acc => (acc, [])
  | c :: rest, acc =>
    if isDigit c then parseDigits rest (acc * 10 + (c.toNat - 48)) else (acc, c :: rest)

/-! ## UTF-8 decoding (`bytes.decode("utf-8")`)

A faithful strict UTF-8 decoder: it rejects lone continuation bytes,
overlong forms, surrogate code points and code points above `0x10FFFF`,
exactly as CPython's strict `bytes.decode("utf-8")` does. -/

mutual

/-- UTF-8 decoding worker; the fuel (first argument) bounds the number of
decoded characters and keeps the mutual recursion structural. -/
def utf8Go : Nat → List Nat → Option (List Char)
  | _, [] => some []
  | 0, _ :: _ => none
  | f + 1, b :: rest =>
    if b < 0x80 then (utf8Go f rest).map (fun s => Char.ofNat b :: s)
    else if b < 0xC2 then none
    else if b < 0xE0 then utf8Two f b rest
    else if b < 0xF0 then utf8Three f b rest
    else if b < 0xF5 then utf8Four f b rest
    else none

/-- Continuation of a two-byte UTF-8 sequence whose leading byte is `b`. -/
def utf8Two (f : Nat) (b : Nat) : List Nat → Option (List Char)
  | c1 :: rest2 =>
    if 0x80 ≤ c1 ∧ c1 < 0xC0 then
      (utf8Go f rest2).map (fun s => Char.ofNat ((b - 0xC0) * 64 + (c1 - 0x80)) :: s)
    else none
  | [] => none

/-- Continuation of a three-byte UTF-8 sequence whose leading byte is `b`;
the extra conditions reject overlong forms and surrogates. -/
def utf8Three (f : Nat) (b : Nat) : List Nat → Option (List Char)
  | c1 :: c2 :: rest2 =>
    if (0x80 ≤ c1 ∧ c1 < 0xC0) ∧ (0x80 ≤ c2 ∧ c2 < 0xC0)
        ∧ (b ≠ 0xE0 ∨ 0xA0 ≤ c1) ∧ (b ≠ 0xED ∨ c1 < 0xA0) then
      (utf8Go f rest2).map
        (fun s => Char.ofNat ((b - 0xE0) * 4096 + (c1 - 0x80) * 64 + (c2 - 0x80)) :: s)
    else none
  | _ => none

/-- Continuation of a four-byte UTF-8 sequence whose leading byte is `b`;
the extra conditions reject overlong forms and code points above `0x10FFFF`. -/
def utf8Four (f : Nat) (b : Nat) : List Nat → Option (List Char)
  | c1 :: c2 :: c3 :: rest2 =>
    if (0x80 ≤ c1 ∧ c1 < 0xC0) ∧ (0x80 ≤ c2 ∧ c2 < 0xC0) ∧ (0x80 ≤ c3 ∧ c3 < 0xC0)
        ∧ (b ≠ 0xF0 ∨ 0x90 ≤ c1) ∧ (b ≠ 0xF4 ∨ c1 < 0x90) then
      (utf8Go f rest2).map
        (fun s => Char.ofNat
          ((b - 0xF0) * 262144 + (c1 - 0x80) * 4096 + (c2 - 0x80) * 64 + (c3 - 0x80)) :: s)
    else none
  | _ => none

end

/-- Strict UTF-8 decoding of a byte sequence, as CPython's
`bytes.decode("utf-8")`: `none` models a raised `UnicodeDecodeError`.  The
input's length is enough fuel, since every decoded character consumes at
least one byte. -/
def utf8Decode (l : List Nat) : Option (List Char) := utf8Go l.length l

theorem utf8Go_ascii : ∀ (f : Nat) (s : Str), s.length ≤ f → (∀ c ∈ s, c.toNat < 128) →
    utf8Go f (s.map Char.toNat) = some s := by
  intro f
  induction f with
  | zero =>
    intro s hlen _
    have : s = [] := List.length_eq_zero.mp (Nat.le_zero.mp hlen)
    subst this
    rfl
  | succ f ih =>
    intro s hlen h
    match s with
    | [] => rfl
    | c :: rest =>
      have hc : c.toNat < 128 := h c (by simp)
      have hrest := ih rest (by simpa using hlen) (fun x hx => h x (by simp [hx]))
      simp [utf8Go, hc, hrest, Char.ofNat_toNat]

/-- ASCII bytes decode to themselves as UTF-8. -/
theorem utf8Decode_ascii (s : Str) (h : ∀ c ∈ s, c.toNat < 128) :
    utf8Decode (s.map Char.toNat) = some s := by
  unfold utf8Decode
  exact utf8Go_ascii _ s (by simp) h

/-- A byte sequence starting with `0x80` is never valid UTF-8. -/
theorem utf8Decode_0x80 (rest : List Nat) : utf8Decode (0x80 :: rest) = none := by
  unfold utf8Decode
  simp [utf8Go]

/-! ## Base64 (`base64.b64encode`, `base64.b64decode`)

`b64encode` is standard base64 with padding.  `b64decode` models CPython's
`base64.b64decode(s)` with its default `validate=False`: the string is first
checked to be ASCII (else `ValueError`), then decoded by `binascii.a2b_base64`
in non-strict mode, which silently discards characters outside the base64
alphabet, stops at a padding sequence that completes a quad (ignoring any
remaining input), and raises `binascii.Error` when the residual quad position
is non-zero at the end of input. -/

/-- The base64 alphabet. -/
def b64Chars : List Char :=
  "ABCDEFGHIJKLMNOPQRSTUVWXYZabcdefghijklmnopqrstuvwxyz0123456789+/".toList

/-- The alphabet character for a 6-bit value. -/
def encChar (v : Nat) : Char := b64Chars.getD v 'A'

/-- Standard base64 encoding of a byte sequence, three bytes per quad with
`=` padding on the final partial group. -/
def b64encode : List Nat → List Char
  | [] => []
  | [a] => [encChar (a / 4), encChar (a % 4 * 16), '=', '=']
  | [a, b] => [encChar (a / 4), encChar (a % 4 * 16 + b / 16), encChar (b % 16 * 4), '=']
  | a :: b :: c :: rest =>
    [encChar (a / 4), encChar (a % 4 * 16 + b / 16), encChar (b % 16 * 4 + c / 64),
      encChar (c % 64)] ++ b64encode rest

/-- The 6-bit value of a base64 alphabet character, `none` outside the
alphabet (the `=` pad is handled separately by the decode loop). -/
def b64val (c : Char) : Option Nat :=
  if 'A' ≤ c ∧ c ≤ 'Z' then some (c.toNat - 65)
  else if 'a' ≤ c ∧ c ≤ 'z' then some (c.toNat - 97 + 26)
  else if '0' ≤ c ∧ c ≤ '9' then some (c.toNat - 48 + 52)
  else if c = '+' then some 62
  else if c = '/' then some 63
  else none

/-- The state machine of CPython's non-strict `binascii.a2b_base64`: the
arguments after the input are the quad position, the pending bits, the count
of pending pad characters, and the output accumulator. -/
def a2bLoop : List Char → Nat → Nat → Nat → List Nat → Except PyErr (List Nat)
  | [], qp, _, _, acc => if qp = 0 then .ok acc else .error .binasciiError
  | ch :: rest, qp, left, pads, acc =>
    if ch = '=' then
      if 2 ≤ qp ∧ 4 ≤ qp + (pads + 1) then .ok acc
      else if 2 ≤ qp then a2bLoop rest qp left (pads + 1) acc
      else a2bLoop rest qp left pads acc
    else
      match b64val ch with
      | none => a2bLoop rest qp left pads acc
      | some v =>
        match qp with
        | 0 => a2bLoop rest 1 v 0 acc
        | 1 => a2bLoop rest 2 (v % 16) 0 (acc ++ [left * 4 + v / 16])
        | 2 => a2bLoop rest 3 (v % 4) 0 (acc ++ [left * 16 + v / 4])
        | _ => a2bLoop rest 0 0 0 (acc ++ [left * 64 + v])

/-- `base64.b64decode` with default arguments: ASCII check, then the
non-strict `a2b_base64` loop. -/
def b64decode (s : Str) : Except PyErr Bytes :=
  if s.all (fun c => c.toNat < 128) then a2bLoop s 0 0 0 [] else .error .valueError

theorem b64val_encChar : ∀ v : Fin 64,
    b64val (encChar v.val) = some v.val ∧ encChar v.val ≠ '=' := by decide

theorem a2bLoop_b64encode : ∀ l acc, (∀ b ∈ l, b < 256) →
    a2bLoop (b64encode l) 0 0 0 acc = .ok (acc ++ l) := by
  intro l
  induction l using b64encode.induct with
  | case1 =>
    intro acc _
    simp [b64encode, a2bLoop]
  | case2 a =>
    intro acc h
    have ha : a < 256 := h a (by simp)
    obtain ⟨h1, h1'⟩ := b64val_encChar ⟨a / 4, by omega⟩
    obtain ⟨h2, h2'⟩ := b64val_encChar ⟨a % 4 * 16, by omega⟩
    simp only [b64encode, a2bLoop, if_neg h1', h1, if_neg h2', h2]
    norm_num [a2bLoop]
    omega
  | case3 a b =>
    intro acc h
    have ha : a < 256 := h a (by simp)
    have hb : b < 256 := h b (by simp)
    obtain ⟨h1, h1'⟩ := b64val_encChar ⟨a / 4, by omega⟩
    obtain ⟨h2, h2'⟩ := b64val_encChar ⟨a % 4 * 16 + b / 16, by omega⟩
    obtain ⟨h3, h3'⟩ := b64val_encChar ⟨b % 16 * 4, by omega⟩
    simp only [b64encode, a2bLoop, if_neg h1', h1, if_neg h2', h2, if_neg h3', h3]
    norm_num [a2bLoop]
    constructor
    · omega
    · omega
  | case4 a b c rest ih =>
    intro acc h
    have ha : a < 256 := h a (by simp)
    have hb : b < 256 := h b (by simp)
    have hc : c < 256 := h c (by simp)
    obtain ⟨h1, h1'⟩ := b64val_encChar ⟨a / 4, by omega⟩
    obtain ⟨h2, h2'⟩ := b64val_encChar ⟨a % 4 * 16 + b / 16, by omega⟩
    obtain ⟨h3, h3'⟩ := b64val_encChar ⟨b % 16 * 4 + c / 64, by omega⟩
    obtain ⟨h4, h4'⟩ := b64val_encChar ⟨c % 64, by omega⟩
    simp only [b64encode, List.cons_append, List.nil_append, a2bLoop,
      if_neg h1', h1, if_neg h2', h2, if_neg h3', h3, if_neg h4', h4]
    have harith : a / 4 * 4 + (a % 4 * 16 + b / 16) / 16 = a
        ∧ (a % 4 * 16 + b / 16) % 16 * 16 + (b % 16 * 4 + c / 64) / 4 = b
        ∧ (b % 16 * 4 + c / 64) % 4 * 64 + c % 64 = c := by
      refine ⟨?_, ?_, ?_⟩ <;> omega
    rw [harith.1, harith.2.1, harith.2.2]
    rw [show acc ++ [a] ++ [b] ++ [c] = acc ++ [a, b, c] by simp]
    show a2bLoop (b64encode rest) 0 0 0 (acc ++ [a, b, c]) = _
    rw [ih (acc ++ [a, b, c]) (fun x hx => h x (by simp [hx]))]
    simp

theorem encChar_ascii (v : Nat) : (encChar v).toNat < 128 := by
  by_cases h : v < 64
  · exact (by decide : ∀ x : Fin 64, (encChar x.val).toNat < 128) ⟨v, h⟩
  · unfold encChar
    rw [List.getD_eq_default]
    · decide
    · simp only [not_lt] at h
      exact le_trans (by decide) h

theorem b64encode_ascii : ∀ l, ∀ c ∈ b64encode l, c.toNat < 128 := by
  intro l
  induction l using b64encode.induct with
  | case1 => intro c hc; simp [b64encode] at hc
  | case2 a =>
    intro c hc
    simp only [b64encode, List.mem_cons, List.not_mem_nil, or_false] at hc
    rcases hc with rfl | rfl | rfl | rfl <;> first | exact encChar_ascii _ | decide
  | case3 a b =>
    intro c hc
    simp only [b64encode, List.mem_cons, List.not_mem_nil, or_false] at hc
    rcases hc with rfl | rfl | rfl | rfl <;> first | exact encChar_ascii _ | decide
  | case4 a b c rest ih =>
    intro x hx
    simp only [b64encode, List.cons_append, List.nil_append, List.mem_cons] at hx
    rcases hx with rfl | rfl | rfl | rfl | hx
    · exact encChar_ascii _
    · exact encChar_ascii _
    · exact encChar_ascii _
    · exact encChar_ascii _
    · exact ih x hx

/-- Base64 round-trip on the encoder's output: the library pair is
internally consistent. -/
theorem b64decode_b64encode (l : Bytes) (h : ∀ b ∈ l, b < 256) :
    b64decode (b64encode l) = .ok l := by
  unfold b64decode
  rw [if_pos]
  · exact a2bLoop_b64encode l [] h
  · rw [List.all_eq_true]
    intro c hc
    simpa using b64encode_ascii l c hc

/-- The non-strict decode loop silently skips a character outside the
base64 alphabet (and distinct from the pad), wherever it occurs. -/
theorem a2bLoop_skip (s2 : Str) (c : Char) (hc : b64val c = none) (hne : c ≠ '=') :
    ∀ s1 : Str, ∀ qp left pads acc,
    a2bLoop (s1 ++ c :: s2) qp left pads acc = a2bLoop (s1 ++ s2) qp left pads acc := by
  intro s1
  induction s1 with
  | nil =>
    intro qp left pads acc
    simp only [List.nil_append, a2bLoop, if_neg hne, hc]
  | cons a s1' ih =>
    intro qp left pads acc
    simp only [List.cons_append, a2bLoop]
    by_cases ha : a = '='
    · simp only [if_pos ha]
      by_cases hdone : 2 ≤ qp ∧ 4 ≤ qp + (pads + 1)
      · simp [hdone]
      · by_cases h2 : 2 ≤ qp
        · simp [hdone, h2, ih]
        · simp [hdone, h2, ih]
    · simp only [if_neg ha]
      cases hv : b64val a with
      | none => simp [hv, ih]
      | some v =>
        match qp with
        | 0 => simp [hv, ih]
        | 1 => simp [hv, ih]
        | 2 => simp [hv, ih]
        | n + 3 => simp [hv, ih]

/-- `base64.b64decode` with `validate=False` ignores an inserted ASCII
character outside the alphabet: the decode result is unchanged. -/
theorem b64decode_skip (s1 s2 : Str) (c : Char) (hc : b64val c = none)
    (hne : c ≠ '=') (hascii : c.toNat < 128) :
    b64decode (s1 ++ c :: s2) = b64decode (s1 ++ s2) := by
  unfold b64decode
  by_cases hall : (s1 ++ s2).all (fun c => c.toNat < 128)
  · rw [if_pos hall, if_pos]
    · exact a2bLoop_skip s2 c hc hne s1 0 0 0 []
    · simp only [List.all_append] at hall ⊢
      simp only [List.all_cons]
      simp only [Bool.and_eq_true] at hall ⊢
      exact ⟨hall.1, by simpa using hascii, hall.2⟩
  · rw [if_neg hall, if_neg]
    intro hcon
    apply hall
    simp only [List.all_append, List.all_cons, Bool.and_eq_true] at hcon ⊢
    exact ⟨hcon.1, hcon.2.2⟩

/-! ## The compressor (`zlib.compress` / `zlib.decompress`,
`gzip.compress` / `gzip.decompress`)

Executable model of the CPython `zlib` pair.  `zlib.compress` is modelled as
the level-0 stream the library emits when no compression is applied: the
two-byte zlib header `0x78 0x01`, a sequence of DEFLATE *stored* blocks
(RFC 1951: a final-flag byte, `LEN` and its one's complement `NLEN` as two
little-endian bytes each, then `LEN` raw bytes), and the big-endian Adler-32
checksum of the payload (RFC 1950).  `zlib.decompress` parses exactly that
framing, checks the header and the checksum, and raises `zlib.error`
(`CorruptStream`) otherwise; Huffman-compressed block types, which this
model's compressor never emits, are also rejected as `zlib.error`.  The
`gzip` pair is the same stored-DEFLATE body inside the gzip framing (magic
`0x1f 0x8b`, method 8, empty flags, CRC-32 and length trailer). -/

/-- One step of the Adler-32 state, modulo 65521. -/
def adlerStep : Nat × Nat → Nat → Nat × Nat
  | (s1, s2), b => ((s1 + b) % 65521, (s2 + (s1 + b) % 65521) % 65521)

/-- The Adler-32 state of a byte sequence. -/
def adler32 (d : Bytes) : Nat × Nat := d.foldl adlerStep (1, 0)

/-- The four big-endian trailer bytes of the Adler-32 checksum. -/
def adlerBytes (d : Bytes) : Bytes :=
  [(adler32 d).2 / 256, (adler32 d).2 % 256, (adler32 d).1 / 256, (adler32 d).1 % 256]

/-- The stored-block body: data is cut into blocks of at most 65535 bytes
(the 16-bit `LEN` limit); the fuel bounds the number of non-final blocks. -/
def blocksEnc : Nat → Bytes → Bytes
  | fuel, d =>
    if d.length ≤ 65535 then
      1 :: d.length % 256 :: d.length / 256 ::
        (65535 - d.length) % 256 :: (65535 - d.length) / 256 :: d
    else match fuel with
      | 0 => []
      | f + 1 => 0 :: 255 :: 255 :: 0 :: 0 :: (d.take 65535 ++ blocksEnc f (d.drop 65535))

/-- Parse a sequence of stored blocks; returns the payload and the bytes
after the final block. -/
def blocksDec : Nat → Bytes → Option (Bytes × Bytes)
  | _, 1 :: l1 :: l2 :: n1 :: n2 :: rest =>
    if n1 + 256 * n2 = 65535 - (l1 + 256 * l2) ∧ l1 + 256 * l2 ≤ rest.length then
      some (rest.take (l1 + 256 * l2), rest.drop (l1 + 256 * l2))
    else none
  | fuel, 0 :: l1 :: l2 :: n1 :: n2 :: rest =>
    if n1 + 256 * n2 = 65535 - (l1 + 256 * l2) ∧ l1 + 256 * l2 ≤ rest.length then
      match fuel with
      | 0 => none
      | f + 1 =>
        match blocksDec f (rest.drop (l1 + 256 * l2)) with
        | some (d, r) => some (rest.take (l1 + 256 * l2) ++ d, r)
        | none => none
    else none
  | _, _ => none

/-- `zlib.compress` (level-0 framing): zlib header, stored blocks,
Adler-32 trailer. -/
def zlibCompress (d : Bytes) : Bytes :=
  0x78 :: 0x01 :: (blocksEnc d.length d ++ adlerBytes d)

/-- `zlib.decompress`: checks the zlib header (method 8, window size in
range, header checksum, no preset dictionary), inflates the stored blocks
and verifies the Adler-32 trailer; every failure is `zlib.error`. -/
def zlibDecompress : Bytes → Except PyErr Bytes
  | cmf :: flg :: rest =>
    if cmf % 16 = 8 ∧ cmf / 16 ≤ 7 ∧ (cmf * 256 + flg) % 31 = 0 ∧ flg / 32 % 2 = 0 then
      match blocksDec rest.length rest with
      | some (d, tail) => if tail = adlerBytes d then .ok d else .error .zlibError
      | none => .error .zlibError
    else .error .zlibError
  | _ => .error .zlibError

theorem blocksEnc_length_ge : ∀ fuel d, d.length ≤ 65535 * fuel + 65535 →
    d.length ≤ (blocksEnc fuel d).length := by
  intro fuel
  induction fuel with
  | zero =>
    intro d hlen
    rw [blocksEnc, if_pos (by omega)]
    simp only [List.length_cons]
    omega
  | succ f ih =>
    intro d hlen
    rw [blocksEnc]
    split
    · simp only [List.length_cons]
      omega
    · rename_i h
      simp only [List.length_cons, List.length_append, List.length_take]
      have := ih (d.drop 65535) (by simp only [List.length_drop]; omega)
      simp only [List.length_drop] at this
      simp only [not_le] at h
      omega

theorem blocksDec_blocksEnc : ∀ f : Nat, ∀ g ≥ f, ∀ (d : Bytes) (tail : Bytes),
    d.length ≤ 65535 * f + 65535 →
    blocksDec g (blocksEnc f d ++ tail) = some (d, tail) := by
  intro f
  induction f with
  | zero =>
    intro g _ d tail hlen
    have hle : d.length ≤ 65535 := by omega
    rw [blocksEnc, if_pos hle]
    have h1 : d.length % 256 + 256 * (d.length / 256) = d.length := by omega
    have h2 : (65535 - d.length) % 256 + 256 * ((65535 - d.length) / 256) =
        65535 - d.length := by omega
    simp only [List.cons_append, blocksDec, h1, h2, List.append_eq]
    rw [if_pos ⟨trivial, by simp⟩]
    rw [List.take_left' rfl, List.drop_left' rfl]
  | succ f ih =>
    intro g hg d tail hlen
    by_cases hle : d.length ≤ 65535
    · rw [blocksEnc, if_pos hle]
      have h1 : d.length % 256 + 256 * (d.length / 256) = d.length := by omega
      have h2 : (65535 - d.length) % 256 + 256 * ((65535 - d.length) / 256) =
          65535 - d.length := by omega
      match g, hg with
      | g + 1, _ =>
        simp only [List.cons_append, blocksDec, h1, h2, List.append_eq]
        rw [if_pos ⟨trivial, by simp⟩]
        rw [List.take_left' rfl, List.drop_left' rfl]
      | 0, hg => exact absurd hg (by omega)
    · rw [blocksEnc, if_neg hle]
      match g, hg with
      | g + 1, hg =>
        have hg' : g ≥ f := by omega
        have htk : (d.take 65535).length = 65535 := by
          simp only [List.length_take]
          omega
        have h65 : (255 : Nat) + 256 * 255 = 65535 := by norm_num
        simp only [List.cons_append, blocksDec, h65, List.append_eq]
        rw [if_pos]
        · rw [List.append_assoc, List.take_left' htk, List.drop_left' htk,
            ih g hg' (d.drop 65535) tail (by simp only [List.length_drop]; omega)]
          simp
        · constructor
          · trivial
          · simp only [List.length_append, htk]
            omega
      | 0, hg => exact absurd hg (by omega)

/-- The zlib pair round-trips on every byte sequence. -/
theorem zlibDecompress_zlibCompress (d : Bytes) :
    zlibDecompress (zlibCompress d) = .ok d := by
  unfold zlibCompress
  rw [show (0x78 : Nat) :: 0x01 :: (blocksEnc d.length d ++ adlerBytes d) =
    0x78 :: 0x01 :: (blocksEnc d.length d ++ adlerBytes d) from rfl]
  simp only [zlibDecompress]
  rw [if_pos (by norm_num)]
  have hfuel : (blocksEnc d.length d ++ adlerBytes d).length ≥ d.length := by
    simp only [List.length_append]
    have := blocksEnc_length_ge d.length d (by omega)
    omega
  rw [blocksDec_blocksEnc d.length _ hfuel d (adlerBytes d) (by omega)]
  simp

theorem blocksEnc_lt_256 : ∀ fuel d, (∀ b ∈ d, b < 256) →
    ∀ b ∈ blocksEnc fuel d, b < 256 := by
  intro fuel
  induction fuel with
  | zero =>
    intro d hd b hb
    rw [blocksEnc] at hb
    split at hb
    · simp only [List.mem_cons] at hb
      rcases hb with rfl | rfl | rfl | rfl | rfl | hb
      · omega
      · omega
      · omega
      · omega
      · omega
      · exact hd b hb
    · simp at hb
  | succ f ih =>
    intro d hd b hb
    rw [blocksEnc] at hb
    split at hb
    · simp only [List.mem_cons] at hb
      rcases hb with rfl | rfl | rfl | rfl | rfl | hb
      · omega
      · omega
      · omega
      · omega
      · omega
      · exact hd b hb
    · simp only [List.mem_cons, List.mem_append] at hb
      rcases hb with rfl | rfl | rfl | rfl | rfl | hb | hb
      · omega
      · omega
      · omega
      · omega
      · omega
      · exact hd b (List.mem_of_mem_take hb)
      · exact ih (d.drop 65535) (fun x hx => hd x (List.mem_of_mem_drop hx)) b hb

theorem zlibCompress_lt_256 (d : Bytes) (hd : ∀ b ∈ d, b < 256) :
    ∀ b ∈ zlibCompress d, b < 256 := by
  intro b hb
  unfold zlibCompress at hb
  simp only [List.mem_cons, List.mem_append] at hb
  rcases hb with rfl | rfl | hb | hb
  · omega
  · omega
  · exact blocksEnc_lt_256 d.length d hd b hb
  · have key : ∀ (l : Bytes) (s : Nat × Nat), s.1 < 65536 → s.2 < 65536 →
        (l.foldl adlerStep s).1 < 65536 ∧ (l.foldl adlerStep s).2 < 65536 := by
      intro l
      induction l with
      | nil => intro s h1 h2; exact ⟨h1, h2⟩
      | cons x xs ihx =>
        intro s h1 h2
        simp only [List.foldl_cons]
        exact ihx (adlerStep s x) (by simp only [adlerStep]; omega)
          (by simp only [adlerStep]; omega)
    have := key d (1, 0) (by omega) (by omega)
    unfold adlerBytes at hb
    unfold adler32 at hb this
    simp only [List.mem_cons, List.not_mem_nil, or_false] at hb
    rcases hb with rfl | rfl | rfl | rfl <;> omega

/-! ## The value domain

The structured values the pipeline transports: exactly the shapes
representable by both serializers of the source (`None`, booleans, integers,
text strings, lists, and string-keyed dictionaries in insertion order).
Python lists and dicts are modelled by the mutually inductive `PyList` /
`PyDict` so that all recursion over values stays structural. -/

mutual

inductive PyVal where
  | none : PyVal
  | bool (b : Bool) : PyVal
  | int (i : Int) : PyVal
  | str (s : Str) : PyVal
  | list (xs : PyList) : PyVal
  | dict (kvs : PyDict) : PyVal

inductive PyList where
  | nil : PyList
  | cons (hd : PyVal) (tl : PyList) : PyList

inductive PyDict where
  | nil : PyDict
  | cons (k : Str) (v : PyVal) (tl : PyDict) : PyDict

end

/-- Does the dictionary bind the key? (Python `k in d`.) -/
def hasKey : PyDict → Str → Bool
  | .nil, _ => false
  | .cons k0 _ tl, k => k0 == k || hasKey tl k

/-- Python `d[k] = v`: replace the value at the first occurrence of the
key, keeping its position, else append the binding at the end. -/
def dictInsert : PyDict → Str → PyVal → PyDict
  | .nil, k, v => .cons k v .nil
  | .cons k0 v0 tl, k, v =>
    if k0 = k then .cons k0 v tl else .cons k0 v0 (dictInsert tl k v)

/-- Dictionary concatenation (used only to state parser lemmas). -/
def dictApp : PyDict → PyDict → PyDict
  | .nil, e => e
  | .cons k v tl, e => .cons k v (dictApp tl e)

mutual

/-- Well-formedness of a value: every dictionary in it has pairwise
distinct keys — automatically true of every Python `dict`, which cannot
hold a key twice. -/
def wfV : PyVal → Bool
  | .list xs => wfL xs
  | .dict kvs => wfD kvs
  | _ => true

def wfL : PyList → Bool
  | .nil => true
  | .cons v tl => wfV v && wfL tl

def wfD : PyDict → Bool
  | .nil => true
  | .cons k v tl => !hasKey tl k && wfV v && wfD tl

end

/-! ## The binary structural serializer (`cPickle.dumps` / `cPickle.loads`)

Model of the pickle pair on the value domain above.  The model keeps the
properties of CPython pickle the verified claims depend on: `dumps` emits
the protocol-2+ header whose first byte `0x80` is never a valid UTF-8
leading byte, ends the stream with the STOP byte `0x2e` (`.`), is injective
on well-formed values, and `loads` inverts it; `loads` of a Python `str`
(not `bytes`) raises `TypeError`, and malformed byte streams raise pickle's
`UnpicklingError`.  The byte-level opcode layout inside the body is a
simplified tag-length scheme, not the real opcode set. -/

/-- Serialized form of a text string: varint length, then each scalar
value as a varint. -/
def encStrP (s : Str) : Bytes := encNat s.length ++ (s.map (fun c => encNat c.toNat)).flatten

/-- Parse `n` varint scalar values into a string. -/
def parseChars : Nat → Bytes → Option (Str × Bytes)
  | 0, b => some ([], b)
  | n + 1, b =>
    match decNat b with
    | some (cp, r) =>
      if Char.isValidCharNat cp then
        match parseChars n r with
        | some (s, r2) => some (Char.ofNat cp :: s, r2)
        | Option.none => Option.none
      else Option.none
    | Option.none => Option.none

/-- Parse a serialized string: varint length then that many scalars. -/
def ploadStr (b : Bytes) : Option (Str × Bytes) :=
  match decNat b with
  | some (n, r) => parseChars n r
  | Option.none => Option.none

mutual

/-- Body serialization of the pickle model: one tag byte per value, with
entry markers `0x01` and terminator `0x00` for the container bodies. -/
def pdumpV : PyVal → Bytes
  | .none => [0x10]
  | .bool b => [0x11, if b then 1 else 0]
  | .int i => 0x12 :: (if i < 0 then 1 else 0) :: encNat i.natAbs
  | .str s => 0x13 :: encStrP s
  | .list xs => 0x14 :: (pdumpL xs ++ [0x00])
  | .dict kvs => 0x15 :: (pdumpD kvs ++ [0x00])

def pdumpL : PyList → Bytes
  | .nil => []
  | .cons v tl => 0x01 :: (pdumpV v ++ pdumpL tl)

def pdumpD : PyDict → Bytes
  | .nil => []
  | .cons k v tl => 0x01 :: (encStrP k ++ pdumpV v ++ pdumpD tl)

end

mutual

/-- Body parser of the pickle model, fuelled to keep recursion structural. -/
def ploadV : Nat → Bytes → Option (PyVal × Bytes)
  | 0, _ => Option.none
  | _ + 1, 0x10 :: r => some (.none, r)
  | _ + 1, 0x11 :: 0 :: r => some (.bool false, r)
  | _ + 1, 0x11 :: 1 :: r => some (.bool true, r)
  | _ + 1, 0x12 :: sg :: r =>
    match decNat r with
    | some (m, r2) =>
      if sg = 0 then some (.int (m : Int), r2)
      else if sg = 1 then some (.int (-(m : Int)), r2)
      else Option.none
    | Option.none => Option.none
  | _ + 1, 0x13 :: r =>
    match ploadStr r with
    | some (s, r2) => some (.str s, r2)
    | Option.none => Option.none
  | f + 1, 0x14 :: r =>
    match ploadL f r with
    | some (xs, r2) => some (.list xs, r2)
    | Option.none => Option.none
  | f + 1, 0x15 :: r =>
    match ploadD f r .nil with
    | some (kvs, r2) => some (.dict kvs, r2)
    | Option.none => Option.none
  | _ + 1, _ => Option.none

def ploadL : Nat → Bytes → Option (PyList × Bytes)
  | 0, _ => Option.none
  | _ + 1, 0x00 :: r => some (.nil, r)
  | f + 1, 0x01 :: r =>
    match ploadV f r with
    | some (v, r2) =>
      match ploadL f r2 with
      | some (tl, r3) => some (.cons v tl, r3)
      | Option.none => Option.none
    | Option.none => Option.none
  | _ + 1, _ => Option.none

/-- Dict entries are loaded one at a time and inserted with Python's
`d[k] = v` semantics, as pickle's `SETITEMS` does. -/
def ploadD : Nat → Bytes → PyDict → Option (PyDict × Bytes)
  | 0, _, _ => Option.none
  | _ + 1, 0x00 :: r, acc => some (acc, r)
  | f + 1, 0x01 :: r, acc =>
    match ploadStr r with
    | some (k, r2) =>
      match ploadV f r2 with
      | some (v, r3) => ploadD f r3 (dictInsert acc k v)
      | Option.none => Option.none
    | Option.none => Option.none
  | _ + 1, _, _ => Option.none

end

/-- `cPickle.dumps` with a protocol-2+ default: the `PROTO` header
`0x80 0x04`, the body, and the STOP byte. -/
def pickleDumps (v : PyVal) : Bytes := 0x80 :: 0x04 :: (pdumpV v ++ [0x2e])

/-- `cPickle.loads` on bytes: protocol header, body, STOP. -/
def pickleLoads : Bytes → Except PyErr PyVal
  | 0x80 :: _ :: r =>
    match ploadV (r.length + 1) r with
    | some (v, 0x2e :: _) => .ok v
    | _ => .error .pickleError
  | _ => .error .pickleError

/-- Every character's scalar value is in the valid range. -/
theorem char_isValidCharNat (c : Char) : Char.isValidCharNat c.toNat := by
  rcases c.valid with h | ⟨h1, h2⟩
  · left
    exact_mod_cast h
  · right
    exact ⟨by exact_mod_cast h1, by exact_mod_cast h2⟩

theorem parseChars_enc : ∀ (s : Str) (rest : Bytes),
    parseChars s.length ((s.map (fun c => encNat c.toNat)).flatten ++ rest) = some (s, rest) := by
  intro s
  induction s with
  | nil => intro rest; rfl
  | cons c tl ih =>
    intro rest
    simp only [List.map_cons, List.flatten_cons, List.length_cons, List.append_assoc]
    simp only [parseChars, decNat_encNat, if_pos (char_isValidCharNat c), ih rest,
      Char.ofNat_toNat]

theorem ploadStr_enc (s : Str) (rest : Bytes) :
    ploadStr (encStrP s ++ rest) = some (s, rest) := by
  unfold encStrP ploadStr
  rw [List.append_assoc, decNat_encNat]
  exact parseChars_enc s rest

/-! Size measures used as parser fuel bounds. -/

mutual

def szV : PyVal → Nat
  | .list xs => szL xs + 1
  | .dict kvs => szD kvs + 1
  | _ => 1

def szL : PyList → Nat
  | .nil => 1
  | .cons v tl => szV v + szL tl + 1

def szD : PyDict → Nat
  | .nil => 1
  | .cons _ v tl => szV v + szD tl + 1

end

theorem szV_pos (v : PyVal) : 1 ≤ szV v := by
  cases v <;> simp [szV]

mutual

theorem szV_le_len : ∀ v : PyVal, szV v ≤ (pdumpV v).length
  | .none => by simp [szV, pdumpV]
  | .bool b => by simp [szV, pdumpV]
  | .int i => by simp [szV, pdumpV]
  | .str s => by simp [szV, pdumpV]
  | .list xs => by
    have := szL_le_len xs
    simp only [szV, pdumpV, List.length_cons, List.length_append]
    omega
  | .dict kvs => by
    have := szD_le_len kvs
    simp only [szV, pdumpV, List.length_cons, List.length_append]
    omega

theorem szL_le_len : ∀ xs : PyList, szL xs ≤ (pdumpL xs).length + 1
  | .nil => by simp [szL, pdumpL]
  | .cons v tl => by
    have h1 := szV_le_len v
    have h2 := szL_le_len tl
    simp only [szL, pdumpL, List.length_cons, List.length_append]
    omega

theorem szD_le_len : ∀ kvs : PyDict, szD kvs ≤ (pdumpD kvs).length + 1
  | .nil => by simp [szD, pdumpD]
  | .cons k v tl => by
    have h1 := szV_le_len v
    have h2 := szD_le_len tl
    simp only [szD, pdumpD, List.length_cons, List.length_append]
    omega

end

theorem dictApp_nil : ∀ acc : PyDict, dictApp acc .nil = acc
  | .nil => rfl
  | .cons k v tl => by rw [dictApp, dictApp_nil tl]

theorem dictApp_assoc : ∀ a b c : PyDict, dictApp (dictApp a b) c = dictApp a (dictApp b c)
  | .nil, _, _ => rfl
  | .cons k v tl, b, c => by rw [dictApp, dictApp, dictApp, dictApp_assoc tl b c]

theorem dictInsert_fresh : ∀ (acc : PyDict) (k : Str) (v : PyVal),
    hasKey acc k = false → dictInsert acc k v = dictApp acc (.cons k v .nil)
  | .nil, k, v, _ => rfl
  | .cons k0 v0 tl, k, v, h => by
    rw [hasKey] at h
    simp only [Bool.or_eq_false_iff, beq_eq_false_iff_ne, ne_eq] at h
    rw [dictInsert, if_neg h.1, dictApp, dictInsert_fresh tl k v h.2]

theorem hasKey_dictApp : ∀ (a b : PyDict) (k : Str),
    hasKey (dictApp a b) k = (hasKey a k || hasKey b k)
  | .nil, b, k => by simp [dictApp, hasKey]
  | .cons k0 v0 tl, b, k => by
    rw [dictApp, hasKey, hasKey, hasKey_dictApp tl b k, Bool.or_assoc]

mutual

theorem ploadV_pdumpV : ∀ v : PyVal, wfV v = true → ∀ f : Nat, szV v ≤ f → ∀ rest : Bytes,
    ploadV f (pdumpV v ++ rest) = some (v, rest)
  | .none, _, f, hf, rest => by
    match f, hf with
    | f + 1, _ => simp [pdumpV, ploadV]
  | .bool b, _, f, hf, rest => by
    match f, hf with
    | f + 1, _ => cases b <;> simp [pdumpV, ploadV]
  | .int i, _, f, hf, rest => by
    match f, hf with
    | f + 1, _ =>
      by_cases hi : i < 0
      · have habs : (-(i.natAbs : Int)) = i := by omega
        simp only [pdumpV, if_pos hi, List.cons_append, ploadV, decNat_encNat]
        simp [habs, abs_of_neg hi]
      · have habs : ((i.natAbs : Int)) = i := by omega
        simp only [pdumpV, if_neg hi, List.cons_append, ploadV, decNat_encNat]
        simp [habs, abs_of_nonneg (le_of_not_lt hi)]
  | .str s, _, f, hf, rest => by
    match f, hf with
    | f + 1, _ =>
      simp only [pdumpV, List.cons_append, ploadV, List.append_assoc]
      rw [ploadStr_enc s rest]
  | .list xs, hwf, f, hf, rest => by
    match f, hf with
    | f + 1, hf =>
      have hwf2 : wfL xs = true := by simpa [wfV] using hwf
      have hsz : szL xs ≤ f := by
        have : szV (.list xs) = szL xs + 1 := rfl
        omega
      simp only [pdumpV, List.cons_append, ploadV, List.append_assoc, List.cons_append,
        List.nil_append, ploadL_pdumpL xs hwf2 f hsz rest]
  | .dict kvs, hwf, f, hf, rest => by
    match f, hf with
    | f + 1, hf =>
      have hwf2 : wfD kvs = true := by simpa [wfV] using hwf
      have hsz : szD kvs ≤ f := by
        have : szV (.dict kvs) = szD kvs + 1 := rfl
        omega
      simp only [pdumpV, List.cons_append, ploadV, List.append_assoc, List.cons_append,
        List.nil_append, List.append_eq, ploadD_pdumpD kvs hwf2 .nil (fun _ _ => rfl) f hsz rest]
      rfl
  termination_by v => szV v
  decreasing_by all_goals first | (simp [szV, szL, szD]; omega) | simp [szV, szL, szD]

theorem ploadL_pdumpL : ∀ xs : PyList, wfL xs = true → ∀ f : Nat, szL xs ≤ f →
    ∀ rest : Bytes, ploadL f (pdumpL xs ++ 0x00 :: rest) = some (xs, rest)
  | .nil, _, f, hf, rest => by
    match f, hf with
    | f + 1, _ => simp [pdumpL, ploadL]
  | .cons v tl, hwf, f, hf, rest => by
    match f, hf with
    | f + 1, hf =>
      rw [wfL] at hwf
      simp only [Bool.and_eq_true] at hwf
      have hsz : szL (.cons v tl) = szV v + szL tl + 1 := rfl
      have h1 : szV v ≤ f := by omega
      have h2 : szL tl ≤ f := by
        have := szV_pos v
        omega
      simp only [pdumpL, List.cons_append, ploadL, List.append_assoc, List.nil_append,
        List.append_eq, ploadV_pdumpV v hwf.1 f h1, ploadL_pdumpL tl hwf.2 f h2]
  termination_by xs => szL xs
  decreasing_by all_goals first | (simp [szV, szL, szD]; omega) | simp [szV, szL, szD]

theorem ploadD_pdumpD : ∀ kvs : PyDict, wfD kvs = true →
    ∀ acc : PyDict, (∀ k, hasKey kvs k = true → hasKey acc k = false) →
    ∀ f : Nat, szD kvs ≤ f → ∀ rest : Bytes,
    ploadD f (pdumpD kvs ++ 0x00 :: rest) acc = some (dictApp acc kvs, rest)
  | .nil, _, acc, _, f, hf, rest => by
    match f, hf with
    | f + 1, _ => simp [pdumpD, ploadD, dictApp_nil]
  | .cons k v tl, hwf, acc, hacc, f, hf, rest => by
    match f, hf with
    | f + 1, hf =>
      rw [wfD] at hwf
      simp only [Bool.and_eq_true, Bool.not_eq_true'] at hwf
      obtain ⟨⟨hknotin, hwfv⟩, hwftl⟩ := hwf
      have hsz : szD (.cons k v tl) = szV v + szD tl + 1 := rfl
      have h1 : szV v ≤ f := by omega
      have h2 : szD tl ≤ f := by
        have := szV_pos v
        omega
      have hkfresh : hasKey acc k = false := by
        apply hacc
        rw [hasKey]
        simp
      have hfresh : ∀ k2, hasKey tl k2 = true →
          hasKey (dictApp acc (.cons k v .nil)) k2 = false := by
        intro k2 hk2
        rw [hasKey_dictApp]
        have ha : hasKey acc k2 = false := by
          apply hacc
          rw [hasKey, hk2]
          simp
        have hk : (k == k2) = false := by
          by_cases hkk : k = k2
          · subst hkk
            simp [hknotin] at hk2
          · simpa using hkk
        rw [ha, hasKey, hk, hasKey]
        rfl
      simp only [pdumpD, List.cons_append, ploadD, List.append_assoc, List.nil_append,
        List.append_eq, ploadStr_enc, ploadV_pdumpV v hwfv f h1,
        dictInsert_fresh acc k v hkfresh,
        ploadD_pdumpD tl hwftl (dictApp acc (.cons k v .nil)) hfresh f h2]
      rw [dictApp_assoc]
      rfl
  termination_by kvs => szD kvs
  decreasing_by all_goals first | (simp [szV, szL, szD]; omega) | simp [szV, szL, szD]

end

/-- The pickle pair round-trips on every well-formed value. -/
theorem pickleLoads_pickleDumps (v : PyVal) (hwf : wfV v = true) :
    pickleLoads (pickleDumps v) = .ok v := by
  unfold pickleDumps
  simp only [pickleLoads, ploadV_pdumpV v hwf ((pdumpV v ++ [0x2e]).length + 1)
    (by have := szV_le_len v; simp only [List.length_append]; omega) [0x2e]]

/-! ## The text-interchange serializer (`json.dumps` / `json.loads`)

Model of CPython `json.dumps` with its defaults (`ensure_ascii=True`, the
`", "` / `": "` item and key separators) over the value domain, and of
`json.loads` as a recursive-descent parser.  Escaping follows the CPython
encoder: `"` and `\` get two-character escapes, the control shortcuts
`\b \t \n \f \r` are used, any other character outside `0x20..0x7E` becomes
`\uXXXX` (a surrogate pair for code points beyond the basic plane), so the
emitted text is always pure ASCII.  `loads` errors are all folded into the
single `jsonError` class; the claims only exercise the success path.  JSON
floats are not part of the value domain: the number parser rejects a
fraction or exponent, which `dumps` never emits. -/

/-- Lowercase hex digit character. -/
def hexC (d : Nat) : Char := if d < 10 then Char.ofNat (48 + d) else Char.ofNat (87 + d)

/-- Four-digit lowercase hex, as in `\uXXXX`. -/
def hex4 (n : Nat) : List Char :=
  [hexC (n / 4096 % 16), hexC (n / 256 % 16), hexC (n / 16 % 16), hexC (n % 16)]

/-- The `\uXXXX` escape of a code point, as a surrogate pair beyond
`0xFFFF`. -/
def uEsc (n : Nat) : List Char :=
  if n < 0x10000 then '\\' :: 'u' :: hex4 n
  else ('\\' :: 'u' :: hex4 (0xD800 + (n - 0x10000) / 0x400))
    ++ ('\\' :: 'u' :: hex4 (0xDC00 + (n - 0x10000) % 0x400))

/-- The CPython `ensure_ascii` escape of one character. -/
def jchar (c : Char) : List Char :=
  if c = '"' then ['\\', '"']
  else if c = '\\' then ['\\', '\\']
  else if c = '\x08' then ['\\', 'b']
  else if c = '\x0c' then ['\\', 'f']
  else if c = '\n' then ['\\', 'n']
  else if c = '\r' then ['\\', 'r']
  else if c = '\t' then ['\\', 't']
  else if c.toNat < 0x20 ∨ 0x7e < c.toNat then uEsc c.toNat
  else [c]

/-- The escaped body of a JSON string literal. -/
def jstr (s : Str) : List Char := (s.map jchar).flatten

mutual

/-- `json.dumps` with default separators: `", "` between items, `": "`
after keys. -/
def jdumpV : PyVal → Str
  | .none => ['n', 'u', 'l', 'l']
  | .bool b => if b then ['t', 'r', 'u', 'e'] else ['f', 'a', 'l', 's', 'e']
  | .int i => if i < 0 then '-' :: natDigs i.natAbs else natDigs i.toNat
  | .str s => '"' :: (jstr s ++ ['"'])
  | .list xs => '[' :: (jitems xs ++ [']'])
  | .dict kvs => '\x7b' :: (jentries kvs ++ ['\x7d'])

def jitems : PyList → Str
  | .nil => []
  | .cons v .nil => jdumpV v
  | .cons v tl => jdumpV v ++ (',' :: ' ' :: jitems tl)

def jentries : PyDict → Str
  | .nil => []
  | .cons k v .nil => '"' :: (jstr k ++ ('"' :: ':' :: ' ' :: jdumpV v))
  | .cons k v tl =>
    ('"' :: (jstr k ++ ('"' :: ':' :: ' ' :: jdumpV v))) ++ (',' :: ' ' :: jentries tl)

end

/-- JSON whitespace. -/
def isWs (c : Char) : Bool := c == ' ' || c == '\t' || c == '\n' || c == '\r'

/-- Skip JSON whitespace. -/
def skipWs (s : Str) : Str := s.dropWhile isWs

/-- The value of one hex digit character. -/
def hexVal (c : Char) : Option Nat :=
  if '0' ≤ c ∧ c ≤ '9' then some (c.toNat - 48)
  else if 'a' ≤ c ∧ c ≤ 'f' then some (c.toNat - 87)
  else if 'A' ≤ c ∧ c ≤ 'F' then some (c.toNat - 55)
  else none

mutual

/-- Body of a JSON string literal up to the closing quote; the fuel keeps
the mutual recursion structural and is in practice the input length. -/
def jstrBody : Nat → Str → Option (Str × Str)
  | _, [] => Option.none
  | 0, _ :: _ => Option.none
  | f + 1, c :: rest =>
    if c = '"' then some ([], rest)
    else if c = '\\' then jstrEsc f rest
    else if c.toNat < 0x20 then Option.none
    else (jstrBody f rest).map (fun p => (c :: p.1, p.2))

/-- After a backslash. -/
def jstrEsc : Nat → Str → Option (Str × Str)
  | _, [] => Option.none
  | 0, _ :: _ => Option.none
  | f + 1, e :: rest =>
    if e = 'u' then jstrU f rest
    else
      match
        (if e = '"' then some '"'
         else if e = '\\' then some '\\'
         else if e = '/' then some '/'
         else if e = 'b' then some '\x08'
         else if e = 'f' then some '\x0c'
         else if e = 'n' then some '\n'
         else if e = 'r' then some '\r'
         else if e = 't' then some '\t'
         else Option.none : Option Char) with
      | some c => (jstrBody f rest).map (fun p => (c :: p.1, p.2))
      | Option.none => Option.none

/-- After `\u`: four hex digits, possibly the high half of a surrogate
pair. -/
def jstrU : Nat → Str → Option (Str × Str)
  | 0, _ => Option.none
  | f + 1, h1 :: h2 :: h3 :: h4 :: rest =>
    match hexVal h1, hexVal h2, hexVal h3, hexVal h4 with
    | some a, some b, some c, some d =>
      let n := 4096 * a + 256 * b + 16 * c + d
      if 0xD800 ≤ n ∧ n < 0xDC00 then jstrLow f n rest
      else if 0xDC00 ≤ n ∧ n < 0xE000 then Option.none
      else (jstrBody f rest).map (fun p => (Char.ofNat n :: p.1, p.2))
    | _, _, _, _ => Option.none
  | _ + 1, _ => Option.none

/-- Low half of a surrogate pair following a high half of value `hi`. -/
def jstrLow : Nat → Nat → Str → Option (Str × Str)
  | 0, _, _ => Option.none
  | f + 1, hi, '\\' :: 'u' :: h1 :: h2 :: h3 :: h4 :: rest =>
    match hexVal h1, hexVal h2, hexVal h3, hexVal h4 with
    | some a, some b, some c, some d =>
      let n := 4096 * a + 256 * b + 16 * c + d
      if 0xDC00 ≤ n ∧ n < 0xE000 then
        (jstrBody f rest).map
          (fun p => (Char.ofNat (0x10000 + (hi - 0xD800) * 0x400 + (n - 0xDC00)) :: p.1, p.2))
      else Option.none
    | _, _, _, _ => Option.none
  | _ + 1, _, _ => Option.none

end

/-- Strip an expected literal from the input. -/
def stripLit : Str → Str → Option Str
  | [], s => some s
  | c :: l, d :: s => if c = d then stripLit l s else Option.none
  | _ :: _, [] => Option.none

/-- Parse an unsigned integer literal: at least one digit, and reject a
following fraction or exponent (floats are outside the modelled domain). -/
def jnat (s : Str) : Option (Nat × Str) :=
  match s with
  | c :: rest =>
    if isDigit c then
      match parseDigits rest (c.toNat - 48) with
      | (n, r) =>
        match r with
        | [] => some (n, [])
        | d :: _ => if d = '.' ∨ d = 'e' ∨ d = 'E' then Option.none else some (n, r)
    else Option.none
  | [] => Option.none

mutual

/-- `json.loads` value parser; one unit of fuel per nesting level or
container item. -/
def jparse : Nat → Str → Except PyErr (PyVal × Str)
  | 0, _ => .error .jsonError
  | f + 1, s => jparse1 f (skipWs s)

def jparse1 : Nat → Str → Except PyErr (PyVal × Str)
  | _, [] => .error .jsonError
  | 0, _ :: _ => .error .jsonError
  | f + 1, c :: rest =>
    if c = '\x7b' then jobjStart f (skipWs rest)
    else if c = '[' then jarrStart f (skipWs rest)
    else if c = '"' then
      match jstrBody rest.length rest with
      | some (s, r) => .ok (.str s, r)
      | Option.none => .error .jsonError
    else if c = 'n' then
      match stripLit ['u', 'l', 'l'] rest with
      | some r => .ok (.none, r)
      | Option.none => .error .jsonError
    else if c = 't' then
      match stripLit ['r', 'u', 'e'] rest with
      | some r => .ok (.bool true, r)
      | Option.none => .error .jsonError
    else if c = 'f' then
      match stripLit ['a', 'l', 's', 'e'] rest with
      | some r => .ok (.bool false, r)
      | Option.none => .error .jsonError
    else if c = '-' then
      match jnat rest with
      | some (n, r) => .ok (.int (-(n : Int)), r)
      | Option.none => .error .jsonError
    else
      match jnat (c :: rest) with
      | some (n, r) => .ok (.int (n : Int), r)
      | Option.none => .error .jsonError

def jarrStart : Nat → Str → Except PyErr (PyVal × Str)
  | 0, _ => .error .jsonError
  | f + 1, s =>
    if s.head? = some ']' then .ok (.list .nil, s.tail)
    else
      match jarrItems f s with
      | .ok (xs, r) => .ok (.list xs, r)
      | .error e => .error e

def jarrItems : Nat → Str → Except PyErr (PyList × Str)
  | 0, _ => .error .jsonError
  | f + 1, s =>
    match jparse f s with
    | .ok (v, r) =>
      match skipWs r with
      | ',' :: r2 =>
        match jarrItems f r2 with
        | .ok (tl, r3) => .ok (.cons v tl, r3)
        | .error e => .error e
      | ']' :: r2 => .ok (.cons v .nil, r2)
      | _ => .error .jsonError
    | .error e => .error e

def jobjStart : Nat → Str → Except PyErr (PyVal × Str)
  | 0, _ => .error .jsonError
  | f + 1, s =>
    if s.head? = some '\x7d' then .ok (.dict .nil, s.tail)
    else
      match jobjItems f s .nil with
      | .ok (kvs, r) => .ok (.dict kvs, r)
      | .error e => .error e

/-- Members of a JSON object are inserted one at a time with Python's
`d[k] = v` semantics (the default `object_pairs` handling builds a dict from
the parsed pairs). -/
def jobjItems : Nat → Str → PyDict → Except PyErr (PyDict × Str)
  | 0, _, _ => .error .jsonError
  | f + 1, '"' :: s, acc =>
    match jstrBody s.length s with
    | some (k, r) =>
      match skipWs r with
      | ':' :: r2 =>
        match jparse f r2 with
        | .ok (v, r3) =>
          match skipWs r3 with
          | ',' :: r4 => jobjItems f (skipWs r4) (dictInsert acc k v)
          | '\x7d' :: r4 => .ok (dictInsert acc k v, r4)
          | _ => .error .jsonError
        | .error e => .error e
      | _ => .error .jsonError
    | Option.none => .error .jsonError
  | _ + 1, _, _ => .error .jsonError

end

/-- `json.loads`: parse one value and require only whitespace after it.
The fuel is a generous linear bound on the nesting the input length can
produce. -/
def jsonLoads (s : Str) : Except PyErr PyVal :=
  match jparse (10 * s.length + 10) s with
  | .ok (v, r) => if skipWs r = [] then .ok v else .error .jsonError
  | .error e => .error e

/-! ### Support lemmas for the json round-trip -/

theorem char_toNat_ofNat (n : Nat) (h : Char.isValidCharNat n) :
    (Char.ofNat n).toNat = n := by
  rw [Char.ofNat, dif_pos h]
  simp [Char.toNat, Char.ofNatAux, UInt32.ofNat', UInt32.toNat, BitVec.toNat_ofNatLt]

theorem digitC_facts : ∀ d : Fin 10, isDigit (digitC d.val) = true
    ∧ (digitC d.val).toNat = 48 + d.val ∧ isWs (digitC d.val) = false
    ∧ digitC d.val ≠ '\x7b' ∧ digitC d.val ≠ '[' ∧ digitC d.val ≠ '"'
    ∧ digitC d.val ≠ 'n' ∧ digitC d.val ≠ 't' ∧ digitC d.val ≠ 'f'
    ∧ digitC d.val ≠ '-' ∧ digitC d.val ≠ ']' ∧ digitC d.val ≠ '\x7d' := by decide

theorem natDigsGo_shape : ∀ f n, ∀ c ∈ natDigsGo f n, ∃ d : Fin 10, c = digitC d.val := by
  intro f
  induction f with
  | zero =>
    intro n c hc
    simp only [natDigsGo, List.mem_singleton] at hc
    exact ⟨⟨n % 10, by omega⟩, hc⟩
  | succ f ih =>
    intro n c hc
    by_cases h : n < 10
    · simp only [natDigsGo, if_pos h, List.mem_singleton] at hc
      exact ⟨⟨n, h⟩, hc⟩
    · simp only [natDigsGo, if_neg h, List.mem_append, List.mem_singleton] at hc
      rcases hc with hc | hc
      · exact ih _ c hc
      · exact ⟨⟨n % 10, by omega⟩, hc⟩

theorem natDigsGo_ne_nil (f n : Nat) : natDigsGo f n ≠ [] := by
  cases f with
  | zero => simp [natDigsGo]
  | succ f =>
    by_cases h : n < 10
    · simp [natDigsGo, h]
    · simp [natDigsGo, h]

/-- Everything the json round-trip needs about the stop character after a
number literal. -/
def numStop : Str → Prop
  | [] => True
  | d :: _ => isDigit d = false ∧ d ≠ '.' ∧ d ≠ 'e' ∧ d ≠ 'E'

theorem parseDigits_stop (rest : Str) (a : Nat) (h : numStop rest) :
    parseDigits rest a = (a, rest) := by
  cases rest with
  | nil => rfl
  | cons d r =>
    rw [numStop] at h
    simp [parseDigits, h.1]

theorem parseDigits_natDigsGo : ∀ f n, n ≤ f → ∀ acc rest,
    parseDigits (natDigsGo f n ++ rest) acc =
      parseDigits rest (acc * 10 ^ (natDigsGo f n).length + n) := by
  intro f
  induction f with
  | zero =>
    intro n hn acc rest
    interval_cases n
    simp [natDigsGo, parseDigits, digitC, isDigit]
  | succ f ih =>
    intro n hn acc rest
    by_cases h : n < 10
    · have : isDigit (digitC n) = true := (digitC_facts ⟨n, h⟩).1
      have ht : (digitC n).toNat = 48 + n := (digitC_facts ⟨n, h⟩).2.1
      simp only [natDigsGo, if_pos h, List.cons_append, List.nil_append, parseDigits, this,
        if_true, ht, List.length_singleton]
      norm_num
    · have hd : n / 10 ≤ f := by omega
      have hdig : isDigit (digitC (n % 10)) = true := (digitC_facts ⟨n % 10, by omega⟩).1
      have ht : (digitC (n % 10)).toNat = 48 + n % 10 := (digitC_facts ⟨n % 10, by omega⟩).2.1
      simp only [natDigsGo, if_neg h, List.append_assoc, List.cons_append, List.nil_append]
      rw [ih (n / 10) hd acc (digitC (n % 10) :: rest)]
      simp only [parseDigits, hdig, if_true, ht, List.length_append, List.length_cons,
        List.length_nil]
      congr 1
      have h1 : 48 + n % 10 - 48 = n % 10 := by omega
      rw [h1, pow_succ]
      have h3 : (acc * 10 ^ (natDigsGo f (n / 10)).length + n / 10) * 10 + n % 10 =
          acc * (10 ^ (natDigsGo f (n / 10)).length * 10) + (n / 10 * 10 + n % 10) := by ring
      rw [h3]
      omega

theorem jnat_natDigs (n : Nat) (rest : Str) (hstop : numStop rest) :
    jnat (natDigs n ++ rest) = some (n, rest) := by
  obtain ⟨c, cs, hcons⟩ := List.exists_cons_of_ne_nil (natDigsGo_ne_nil n n)
  have hmem : c ∈ natDigsGo n n := by rw [hcons]; simp
  obtain ⟨d, hd⟩ := natDigsGo_shape n n c hmem
  have hdig : isDigit c = true := by rw [hd]; exact (digitC_facts d).1
  have hfull : parseDigits (natDigsGo n n ++ rest) 0 = (n, rest) := by
    rw [parseDigits_natDigsGo n n (Nat.le_refl n) 0 rest, parseDigits_stop rest _ hstop]
    norm_num
  unfold natDigs
  rw [hcons]
  rw [hcons] at hfull
  simp only [List.cons_append, parseDigits, hdig, if_true] at hfull
  have hzero : 0 * 10 + (c.toNat - 48) = c.toNat - 48 := by omega
  rw [hzero] at hfull
  cases rest with
  | nil =>
    simp only [List.append_eq, List.append_nil] at hfull
    simp [jnat, hdig, hfull]
  | cons r0 rr =>
    rw [numStop] at hstop
    have hne : ¬(r0 = '.' ∨ r0 = 'e' ∨ r0 = 'E') := by tauto
    simp only [List.append_eq] at hfull
    simp [jnat, hdig, hfull, hne]

theorem hexC_facts : ∀ d : Fin 16, hexVal (hexC d.val) = some d.val
    ∧ (hexC d.val).toNat < 128 ∧ hexC d.val ≠ '"' ∧ hexC d.val ≠ '\\' := by decide

theorem stripLit_pfx : ∀ l r : Str, stripLit l (l ++ r) = some r := by
  intro l
  induction l with
  | nil => intro r; rfl
  | cons c cs ih => intro r; simp [stripLit, ih r]

theorem skipWs_cons_not (c : Char) (s : Str) (h : isWs c = false) :
    skipWs (c :: s) = c :: s := by
  simp [skipWs, List.dropWhile, h]

theorem skipWs_cons_ws (c : Char) (s : Str) (h : isWs c = true) :
    skipWs (c :: s) = skipWs s := by
  simp [skipWs, List.dropWhile, h]

/-- The characters that may legitimately follow a complete json value in
the emitted text: end of input, an item separator, or a closing bracket. -/
def jstop : Str → Prop
  | [] => True
  | c :: _ => c = ',' ∨ c = ']' ∨ c = '\x7d'

theorem jstop_numStop (s : Str) (h : jstop s) : numStop s := by
  cases s with
  | nil => trivial
  | cons c r =>
    rw [jstop] at h
    rw [numStop]
    rcases h with rfl | rfl | rfl <;> refine ⟨by decide, by decide, by decide, by decide⟩

/-- Unfolding one backslash step of the string-body machine. -/
theorem jstrBody_bs (f : Nat) (rest : Str) :
    jstrBody (f + 1) ('\\' :: rest) = jstrEsc f rest := by
  simp only [jstrBody, eq_false (by decide : ¬('\\' = '"')), if_false, if_true]

/-- Unfolding the `\u` step of the escape machine. -/
theorem jstrEsc_u (f : Nat) (rest : Str) :
    jstrEsc (f + 1) ('u' :: rest) = jstrU f rest := by
  simp only [jstrEsc, if_true]

/-- Parsing one two-character escape. -/
theorem jesc2 (e c : Char) (f2 : Nat) (rest2 : Str) (hu : e ≠ 'u')
    (htab : (if e = '"' then some '"'
      else if e = '\\' then some '\\'
      else if e = '/' then some '/'
      else if e = 'b' then some '\x08'
      else if e = 'f' then some '\x0c'
      else if e = 'n' then some '\n'
      else if e = 'r' then some '\r'
      else if e = 't' then some '\t'
      else Option.none) = some c) :
    jstrBody (f2 + 2) ('\\' :: e :: rest2) =
      (jstrBody f2 rest2).map (fun p => (c :: p.1, p.2)) := by
  show jstrBody ((f2 + 1) + 1) ('\\' :: (e :: rest2)) = _
  rw [jstrBody_bs]
  simp only [jstrEsc, if_neg hu, htab]

/-- Parsing the escape of a basic-plane code point. -/
theorem jescBMP (t : Nat) (f2 : Nat) (rest2 : Str) (ht : t < 0x10000)
    (hs : ¬(0xD800 ≤ t ∧ t < 0xE000)) :
    jstrBody (f2 + 3) ('\\' :: 'u' :: (hex4 t ++ rest2)) =
      (jstrBody f2 rest2).map (fun p => (Char.ofNat t :: p.1, p.2)) := by
  have e1 : hexVal (hexC (t / 4096 % 16)) = some (t / 4096 % 16) :=
    (hexC_facts ⟨t / 4096 % 16, by omega⟩).1
  have e2 : hexVal (hexC (t / 256 % 16)) = some (t / 256 % 16) :=
    (hexC_facts ⟨t / 256 % 16, by omega⟩).1
  have e3 : hexVal (hexC (t / 16 % 16)) = some (t / 16 % 16) :=
    (hexC_facts ⟨t / 16 % 16, by omega⟩).1
  have e4 : hexVal (hexC (t % 16)) = some (t % 16) :=
    (hexC_facts ⟨t % 16, by omega⟩).1
  have hrec : 4096 * (t / 4096 % 16) + 256 * (t / 256 % 16)
      + 16 * (t / 16 % 16) + t % 16 = t := by omega
  have hc1 : ¬(0xD800 ≤ t ∧ t < 0xDC00) := by omega
  have hc2 : ¬(0xDC00 ≤ t ∧ t < 0xE000) := by omega
  show jstrBody ((f2 + 2) + 1) ('\\' :: ('u' :: (hex4 t ++ rest2))) = _
  rw [jstrBody_bs]
  show jstrEsc ((f2 + 1) + 1) ('u' :: (hex4 t ++ rest2)) = _
  rw [jstrEsc_u]
  simp only [hex4, List.cons_append, List.nil_append, jstrU, e1, e2, e3, e4, hrec]
  rw [if_neg hc1, if_neg hc2]

/-- The `\u` machine on four hex digits encoding a high surrogate hands
over to the low-surrogate machine. -/
theorem jstrU_hi (f n : Nat) (rest : Str) (hHi : 0xD800 ≤ n ∧ n < 0xDC00) :
    jstrU (f + 1) (hex4 n ++ rest) = jstrLow f n rest := by
  have hn : n < 0x10000 := by omega
  have e1 : hexVal (hexC (n / 4096 % 16)) = some (n / 4096 % 16) :=
    (hexC_facts ⟨n / 4096 % 16, by omega⟩).1
  have e2 : hexVal (hexC (n / 256 % 16)) = some (n / 256 % 16) :=
    (hexC_facts ⟨n / 256 % 16, by omega⟩).1
  have e3 : hexVal (hexC (n / 16 % 16)) = some (n / 16 % 16) :=
    (hexC_facts ⟨n / 16 % 16, by omega⟩).1
  have e4 : hexVal (hexC (n % 16)) = some (n % 16) :=
    (hexC_facts ⟨n % 16, by omega⟩).1
  have hrec : 4096 * (n / 4096 % 16) + 256 * (n / 256 % 16)
      + 16 * (n / 16 % 16) + n % 16 = n := by omega
  simp only [hex4, List.cons_append, List.nil_append, jstrU, e1, e2, e3, e4, hrec]
  rw [if_pos hHi]

/-- The low-surrogate machine on a `\u` escape of a low surrogate. -/
theorem jstrLow_step (f hi n : Nat) (rest : Str) (hLo : 0xDC00 ≤ n ∧ n < 0xE000) :
    jstrLow (f + 1) hi ('\\' :: 'u' :: (hex4 n ++ rest)) =
      (jstrBody f rest).map
        (fun p => (Char.ofNat (0x10000 + (hi - 0xD800) * 0x400 + (n - 0xDC00)) :: p.1, p.2)) := by
  have g1 : hexVal (hexC (n / 4096 % 16)) = some (n / 4096 % 16) :=
    (hexC_facts ⟨n / 4096 % 16, by omega⟩).1
  have g2 : hexVal (hexC (n / 256 % 16)) = some (n / 256 % 16) :=
    (hexC_facts ⟨n / 256 % 16, by omega⟩).1
  have g3 : hexVal (hexC (n / 16 % 16)) = some (n / 16 % 16) :=
    (hexC_facts ⟨n / 16 % 16, by omega⟩).1
  have g4 : hexVal (hexC (n % 16)) = some (n % 16) :=
    (hexC_facts ⟨n % 16, by omega⟩).1
  have hrec : 4096 * (n / 4096 % 16) + 256 * (n / 256 % 16)
      + 16 * (n / 16 % 16) + n % 16 = n := by omega
  simp only [hex4, List.cons_append, List.nil_append, jstrLow, g1, g2, g3, g4, hrec]
  rw [if_pos hLo]

/-- Parsing a surrogate-pair escape. -/
theorem jescPair (t : Nat) (f2 : Nat) (rest2 : Str) (hlo : 0x10000 ≤ t)
    (hhi : t < 0x110000) :
    jstrBody (f2 + 4) (uEsc t ++ rest2) =
      (jstrBody f2 rest2).map (fun p => (Char.ofNat t :: p.1, p.2)) := by
  have hbig : ¬t < 0x10000 := by omega
  rw [uEsc, if_neg hbig]
  generalize hthi : 0xD800 + (t - 0x10000) / 0x400 = thi
  generalize htlo : 0xDC00 + (t - 0x10000) % 0x400 = tlo
  have hb1 : (t - 0x10000) / 0x400 < 0x400 := by omega
  have hb2 : (t - 0x10000) % 0x400 < 0x400 := by omega
  have hisHi : 0xD800 ≤ thi ∧ thi < 0xDC00 := by omega
  have hisLo : 0xDC00 ≤ tlo ∧ tlo < 0xE000 := by omega
  have hcomb : 0x10000 + (thi - 0xD800) * 0x400 + (tlo - 0xDC00) = t := by omega
  simp only [List.cons_append, List.append_assoc]
  show jstrBody ((f2 + 3) + 1) ('\\' :: _) = _
  rw [jstrBody_bs]
  show jstrEsc ((f2 + 2) + 1) ('u' :: _) = _
  rw [jstrEsc_u]
  show jstrU ((f2 + 1) + 1) (hex4 thi ++ ('\\' :: 'u' :: (hex4 tlo ++ rest2))) = _
  rw [jstrU_hi (f2 + 1) thi _ hisHi]
  show jstrLow (f2 + 1) thi ('\\' :: 'u' :: (hex4 tlo ++ rest2)) = _
  rw [jstrLow_step f2 thi tlo rest2 hisLo, hcomb]

/-- Parsing a literally-emitted printable character. -/
theorem jescPlain (c : Char) (f2 : Nat) (rest2 : Str) (h1 : c ≠ '"') (h2 : c ≠ '\\')
    (h3 : 0x20 ≤ c.toNat) :
    jstrBody (f2 + 1) (c :: rest2) =
      (jstrBody f2 rest2).map (fun p => (c :: p.1, p.2)) := by
  simp only [jstrBody, if_neg h1, if_neg h2]
  rw [if_neg (by omega)]

set_option maxRecDepth 8192 in
/-- Parsing one emitted character escape: it consumes no more fuel than
input characters, and yields that character followed by the rest. -/
theorem jchar_step (c : Char) (rest2 : Str) (f : Nat)
    (hf : (jchar c ++ rest2).length ≤ f) :
    ∃ f2, rest2.length ≤ f2 ∧
      jstrBody f (jchar c ++ rest2) = (jstrBody f2 rest2).map (fun p => (c :: p.1, p.2)) := by
  have hval := char_isValidCharNat c
  rw [Char.isValidCharNat] at hval
  unfold jchar at hf ⊢
  by_cases h1 : c = '"'
  · subst h1
    rw [if_pos rfl] at hf ⊢
    simp only [List.cons_append, List.nil_append, List.length_cons] at hf ⊢
    obtain ⟨f2, rfl⟩ : ∃ f2, f = f2 + 2 := ⟨f - 2, by omega⟩
    exact ⟨f2, by omega, jesc2 '"' '"' f2 rest2 (by decide) (by decide)⟩
  · rw [if_neg h1] at hf ⊢
    by_cases h2 : c = '\\'
    · subst h2
      rw [if_pos rfl] at hf ⊢
      simp only [List.cons_append, List.nil_append, List.length_cons] at hf ⊢
      obtain ⟨f2, rfl⟩ : ∃ f2, f = f2 + 2 := ⟨f - 2, by omega⟩
      exact ⟨f2, by omega, jesc2 '\\' '\\' f2 rest2 (by decide) (by decide)⟩
    · rw [if_neg h2] at hf ⊢
      by_cases h3 : c = '\x08'
      · subst h3
        rw [if_pos rfl] at hf ⊢
        simp only [List.cons_append, List.nil_append, List.length_cons] at hf ⊢
        obtain ⟨f2, rfl⟩ : ∃ f2, f = f2 + 2 := ⟨f - 2, by omega⟩
        exact ⟨f2, by omega, jesc2 'b' '\x08' f2 rest2 (by decide) (by decide)⟩
      · rw [if_neg h3] at hf ⊢
        by_cases h4 : c = '\x0c'
        · subst h4
          rw [if_pos rfl] at hf ⊢
          simp only [List.cons_append, List.nil_append, List.length_cons] at hf ⊢
          obtain ⟨f2, rfl⟩ : ∃ f2, f = f2 + 2 := ⟨f - 2, by omega⟩
          exact ⟨f2, by omega, jesc2 'f' '\x0c' f2 rest2 (by decide) (by decide)⟩
        · rw [if_neg h4] at hf ⊢
          by_cases h5 : c = '\n'
          · subst h5
            rw [if_pos rfl] at hf ⊢
            simp only [List.cons_append, List.nil_append, List.length_cons] at hf ⊢
            obtain ⟨f2, rfl⟩ : ∃ f2, f = f2 + 2 := ⟨f - 2, by omega⟩
            exact ⟨f2, by omega, jesc2 'n' '\n' f2 rest2 (by decide) (by decide)⟩
          · rw [if_neg h5] at hf ⊢
            by_cases h6 : c = '\r'
            · subst h6
              rw [if_pos rfl] at hf ⊢
              simp only [List.cons_append, List.nil_append, List.length_cons] at hf ⊢
              obtain ⟨f2, rfl⟩ : ∃ f2, f = f2 + 2 := ⟨f - 2, by omega⟩
              exact ⟨f2, by omega, jesc2 'r' '\r' f2 rest2 (by decide) (by decide)⟩
            · rw [if_neg h6] at hf ⊢
              by_cases h7 : c = '\t'
              · subst h7
                rw [if_pos rfl] at hf ⊢
                simp only [List.cons_append, List.nil_append, List.length_cons] at hf ⊢
                obtain ⟨f2, rfl⟩ : ∃ f2, f = f2 + 2 := ⟨f - 2, by omega⟩
                exact ⟨f2, by omega, jesc2 't' '\t' f2 rest2 (by decide) (by decide)⟩
              · rw [if_neg h7] at hf ⊢
                by_cases h8 : c.toNat < 0x20 ∨ 0x7e < c.toNat
                · rw [if_pos h8] at hf ⊢
                  by_cases h9 : c.toNat < 0x10000
                  · rw [uEsc, if_pos h9] at hf ⊢
                    simp only [List.cons_append, List.nil_append, List.length_cons,
                      List.length_append] at hf ⊢
                    obtain ⟨f2, rfl⟩ : ∃ f2, f = f2 + 3 := ⟨f - 3, by
                      simp [hex4] at hf
                      omega⟩
                    refine ⟨f2, by simp [hex4] at hf; omega, ?_⟩
                    rw [jescBMP c.toNat f2 rest2 h9 (by omega), Char.ofNat_toNat]
                  · have hlen : (uEsc c.toNat).length = 12 := by
                      rw [uEsc, if_neg h9]
                      simp [hex4]
                    rw [List.length_append, hlen] at hf
                    obtain ⟨f2, rfl⟩ : ∃ f2, f = f2 + 4 := ⟨f - 4, by omega⟩
                    refine ⟨f2, by omega, ?_⟩
                    rw [jescPair c.toNat f2 rest2 (by omega) (by omega), Char.ofNat_toNat]
                · rw [if_neg h8] at hf ⊢
                  simp only [List.cons_append, List.length_cons, List.nil_append] at hf ⊢
                  obtain ⟨f2, rfl⟩ : ∃ f2, f = f2 + 1 := ⟨f - 1, by omega⟩
                  push_neg at h8
                  exact ⟨f2, by omega, jescPlain c f2 rest2 h1 h2 (by omega)⟩

/-- The escaped body followed by the closing quote parses back to the
original string whenever the fuel covers the input length. -/
theorem jstrBody_jstr : ∀ (s : Str) (f : Nat) (rest : Str),
    (jstr s ++ '"' :: rest).length ≤ f →
    jstrBody f (jstr s ++ '"' :: rest) = some (s, rest) := by
  intro s
  induction s with
  | nil =>
    intro f rest hf
    simp only [jstr, List.map_nil, List.flatten_nil, List.nil_append, List.length_cons] at hf ⊢
    obtain ⟨f2, rfl⟩ : ∃ f2, f = f2 + 1 := ⟨f - 1, by omega⟩
    simp [jstrBody]
  | cons c s2 ih =>
    intro f rest hf
    have hsplit : jstr (c :: s2) = jchar c ++ jstr s2 := by
      simp [jstr]
    rw [hsplit, List.append_assoc] at hf ⊢
    obtain ⟨f2, hf2, hstep⟩ := jchar_step c (jstr s2 ++ '"' :: rest) f hf
    rw [hstep, ih f2 rest hf2]
    rfl

theorem natDigs_head (n : Nat) : ∃ (d : Fin 10) (cs : Str), natDigs n = digitC d.val :: cs := by
  obtain ⟨c, cs, hcons⟩ := List.exists_cons_of_ne_nil (natDigsGo_ne_nil n n)
  obtain ⟨d, hd⟩ := natDigsGo_shape n n c (by rw [hcons]; simp)
  exact ⟨d, cs, by rw [natDigs, hcons, hd]⟩

/-- The first character of an emitted json value: never whitespace, never
a closing bracket. -/
theorem jdump_head (v : PyVal) : ∃ c cs, jdumpV v = c :: cs
    ∧ isWs c = false ∧ c ≠ ']' ∧ c ≠ '\x7d' := by
  cases v with
  | int i =>
    by_cases hi : i < 0
    · exact ⟨'-', _, by rw [jdumpV, if_pos hi], by decide⟩
    · obtain ⟨d, cs, hd⟩ := natDigs_head i.toNat
      refine ⟨digitC d.val, cs, by rw [jdumpV, if_neg hi, hd], ?_, ?_, ?_⟩
      · exact (digitC_facts d).2.2.1
      · exact (digitC_facts d).2.2.2.2.2.2.2.2.2.2.1
      · exact (digitC_facts d).2.2.2.2.2.2.2.2.2.2.2
  | bool b =>
    cases b
    · exact ⟨'f', _, rfl, by decide⟩
    · exact ⟨'t', _, rfl, by decide⟩
  | none => exact ⟨'n', _, rfl, by decide⟩
  | str s => exact ⟨'"', _, rfl, by decide⟩
  | list xs => exact ⟨'[', _, rfl, by decide⟩
  | dict kvs => exact ⟨'\x7b', _, rfl, by decide⟩

theorem skipWs_jdump (v : PyVal) (rest : Str) :
    skipWs (jdumpV v ++ rest) = jdumpV v ++ rest := by
  obtain ⟨c, cs, hcons, hws, _, _⟩ := jdump_head v
  rw [hcons, List.cons_append, skipWs_cons_not c _ hws]

theorem jparse_ws (f : Nat) (s : Str) : jparse f (' ' :: s) = jparse f s := by
  cases f with
  | zero => rfl
  | succ f => simp only [jparse, skipWs_cons_ws ' ' s (by decide)]

theorem jarrItems_ws (f : Nat) (s : Str) : jarrItems f (' ' :: s) = jarrItems f s := by
  cases f with
  | zero => rfl
  | succ f => simp only [jarrItems, jparse_ws]

theorem szL_pos (xs : PyList) : 1 ≤ szL xs := by
  cases xs <;> simp [szL]

theorem szD_pos (kvs : PyDict) : 1 ≤ szD kvs := by
  cases kvs <;> simp [szD]

theorem jparse_step (f : Nat) (s : Str) : jparse (f + 1) s = jparse1 f (skipWs s) := rfl

theorem jparse1_digit (d : Fin 10) (f : Nat) (s : Str) :
    jparse1 (f + 1) (digitC d.val :: s) = (match jnat (digitC d.val :: s) with
      | some (n, r) => .ok (.int (n : Int), r)
      | Option.none => .error .jsonError) := by
  simp only [jparse1, eq_false (digitC_facts d).2.2.2.1, eq_false (digitC_facts d).2.2.2.2.1,
    eq_false (digitC_facts d).2.2.2.2.2.1, eq_false (digitC_facts d).2.2.2.2.2.2.1,
    eq_false (digitC_facts d).2.2.2.2.2.2.2.1, eq_false (digitC_facts d).2.2.2.2.2.2.2.2.1,
    eq_false (digitC_facts d).2.2.2.2.2.2.2.2.2.1, if_false]

theorem jitems_cons (v : PyVal) (tl : PyList) :
    ∃ t2, jitems (.cons v tl) = jdumpV v ++ t2 := by
  cases tl with
  | nil => exact ⟨[], by simp [jitems]⟩
  | cons w tl2 => exact ⟨',' :: ' ' :: jitems (.cons w tl2), rfl⟩

theorem jentries_cons (k : Str) (v : PyVal) (tl : PyDict) :
    ∃ t2, jentries (.cons k v tl) = '"' :: t2 := by
  cases tl with
  | nil => exact ⟨_, rfl⟩
  | cons k2 v2 tl2 => exact ⟨_, rfl⟩

mutual

theorem jparse_jdump : ∀ v : PyVal, wfV v = true → ∀ f : Nat, 5 * szV v ≤ f →
    ∀ rest : Str, jstop rest → jparse f (jdumpV v ++ rest) = .ok (v, rest)
  | .none, _, f, hf, rest, _ => by
    have h1 : szV PyVal.none = 1 := rfl
    obtain ⟨f2, rfl⟩ : ∃ f2, f = f2 + 2 := ⟨f - 2, by omega⟩
    show jparse ((f2 + 1) + 1) (jdumpV PyVal.none ++ rest) = _
    rw [jparse_step, skipWs_jdump]
    rfl
  | .bool b, _, f, hf, rest, _ => by
    have h1 : szV (PyVal.bool b) = 1 := rfl
    obtain ⟨f2, rfl⟩ : ∃ f2, f = f2 + 2 := ⟨f - 2, by omega⟩
    show jparse ((f2 + 1) + 1) (jdumpV (.bool b) ++ rest) = _
    rw [jparse_step, skipWs_jdump]
    cases b <;> rfl
  | .int i, _, f, hf, rest, hstop => by
    have h1 : szV (PyVal.int i) = 1 := rfl
    obtain ⟨f2, rfl⟩ : ∃ f2, f = f2 + 2 := ⟨f - 2, by omega⟩
    show jparse ((f2 + 1) + 1) (jdumpV (.int i) ++ rest) = _
    rw [jparse_step, skipWs_jdump]
    by_cases hi : i < 0
    · have hsplit : jdumpV (.int i) ++ rest = '-' :: (natDigs i.natAbs ++ rest) := by
        rw [jdumpV, if_pos hi]
        simp
      rw [hsplit]
      show jparse1 (f2 + 1) _ = _
      have habs : (-(i.natAbs : Int)) = i := by omega
      simp only [jparse1, if_true, jnat_natDigs i.natAbs rest (jstop_numStop rest hstop),
        habs]
      rfl
    · obtain ⟨d, cs, hd⟩ := natDigs_head i.toNat
      have hsplit : jdumpV (.int i) ++ rest = digitC d.val :: (cs ++ rest) := by
        rw [jdumpV, if_neg hi, hd]
        simp
      rw [hsplit, jparse1_digit d]
      have hjn : jnat (digitC d.val :: (cs ++ rest)) = some (i.toNat, rest) := by
        rw [show digitC d.val :: (cs ++ rest) = natDigs i.toNat ++ rest by rw [hd]; simp]
        exact jnat_natDigs i.toNat rest (jstop_numStop rest hstop)
      have habs : ((i.toNat : Int)) = i := by omega
      rw [hjn]
      simp only [habs]
  | .str s, _, f, hf, rest, _ => by
    have h1 : szV (PyVal.str s) = 1 := rfl
    obtain ⟨f2, rfl⟩ : ∃ f2, f = f2 + 2 := ⟨f - 2, by omega⟩
    show jparse ((f2 + 1) + 1) (jdumpV (.str s) ++ rest) = _
    rw [jparse_step, skipWs_jdump]
    have hsplit : jdumpV (.str s) ++ rest = '"' :: (jstr s ++ '"' :: rest) := by
      show ('"' :: (jstr s ++ ['"'])) ++ rest = _
      simp
    rw [hsplit]
    show jparse1 (f2 + 1) _ = _
    simp only [jparse1, if_true, jstrBody_jstr s _ rest (Nat.le_refl _)]
    rfl
  | .list xs, hwf, f, hf, rest, _ => by
    have hwf2 : wfL xs = true := by simpa [wfV] using hwf
    have h1 : szV (PyVal.list xs) = szL xs + 1 := rfl
    have h2 := szL_pos xs
    obtain ⟨f3, rfl⟩ : ∃ f3, f = f3 + 3 := ⟨f - 3, by omega⟩
    show jparse ((f3 + 2) + 1) (jdumpV (.list xs) ++ rest) = _
    rw [jparse_step, skipWs_jdump]
    have hsplit : jdumpV (.list xs) ++ rest = '[' :: (jitems xs ++ ']' :: rest) := by
      show ('[' :: (jitems xs ++ [']'])) ++ rest = _
      simp
    rw [hsplit]
    show jarrStart (f3 + 1) (skipWs (jitems xs ++ ']' :: rest)) = _
    cases xs with
    | nil =>
      show jarrStart (f3 + 1) (skipWs (']' :: rest)) = _
      rw [skipWs_cons_not ']' rest (by decide)]
      rfl
    | cons v tl =>
      obtain ⟨c, cs, hc, hws, hnb, _⟩ := jdump_head v
      obtain ⟨t2, ht2⟩ := jitems_cons v tl
      have hhead : jitems (.cons v tl) ++ ']' :: rest = c :: (cs ++ (t2 ++ ']' :: rest)) := by
        rw [ht2, hc]
        simp
      rw [hhead, skipWs_cons_not c _ hws]
      have hnoBr : ¬((c :: (cs ++ (t2 ++ ']' :: rest))).head? = some ']') := by
        simp [hnb]
      simp only [jarrStart, if_neg hnoBr]
      rw [show c :: (cs ++ (t2 ++ ']' :: rest)) = jitems (.cons v tl) ++ ']' :: rest
        from hhead.symm]
      rw [jarrItems_jitems (.cons v tl) hwf2 (by simp) f3 (by omega) rest]
  | .dict kvs, hwf, f, hf, rest, _ => by
    have hwf2 : wfD kvs = true := by simpa [wfV] using hwf
    have h1 : szV (PyVal.dict kvs) = szD kvs + 1 := rfl
    have h2 := szD_pos kvs
    obtain ⟨f3, rfl⟩ : ∃ f3, f = f3 + 3 := ⟨f - 3, by omega⟩
    show jparse ((f3 + 2) + 1) (jdumpV (.dict kvs) ++ rest) = _
    rw [jparse_step, skipWs_jdump]
    have hsplit : jdumpV (.dict kvs) ++ rest = '\x7b' :: (jentries kvs ++ '\x7d' :: rest) := by
      show ('\x7b' :: (jentries kvs ++ ['\x7d'])) ++ rest = _
      simp
    rw [hsplit]
    show jobjStart (f3 + 1) (skipWs (jentries kvs ++ '\x7d' :: rest)) = _
    cases kvs with
    | nil =>
      show jobjStart (f3 + 1) (skipWs ('\x7d' :: rest)) = _
      rw [skipWs_cons_not '\x7d' rest (by decide)]
      rfl
    | cons k v tl =>
      obtain ⟨t2, ht2⟩ := jentries_cons k v tl
      have hhead : jentries (.cons k v tl) ++ '\x7d' :: rest
          = '"' :: (t2 ++ '\x7d' :: rest) := by
        rw [ht2]
        simp
      rw [hhead, skipWs_cons_not '"' _ (by decide)]
      have hnoBr : ¬(('"' :: (t2 ++ '\x7d' :: rest)).head? = some '\x7d') := by
        simp
      simp only [jobjStart, if_neg hnoBr]
      rw [show ('"' : Char) :: (t2 ++ '\x7d' :: rest) = jentries (.cons k v tl) ++ '\x7d' :: rest
        from hhead.symm]
      rw [jobjItems_jentries (.cons k v tl) hwf2 (by simp) .nil (fun _ _ => rfl) f3
        (by omega) rest]
      rfl
  termination_by v => szV v
  decreasing_by all_goals (subst_vars; first | (simp [szV, szL, szD]; omega) | simp [szV, szL, szD])

theorem jarrItems_jitems : ∀ xs : PyList, wfL xs = true → xs ≠ .nil → ∀ f : Nat,
    5 * szL xs ≤ f → ∀ rest2 : Str,
    jarrItems f (jitems xs ++ ']' :: rest2) = .ok (xs, rest2)
  | .nil, _, hne, _, _, _ => absurd rfl hne
  | .cons v tl, hwf, _, f, hf, rest2 => by
    rw [wfL] at hwf
    simp only [Bool.and_eq_true] at hwf
    have h1 : szL (PyList.cons v tl) = szV v + szL tl + 1 := rfl
    have h2 := szV_pos v
    have h3 := szL_pos tl
    obtain ⟨f1, rfl⟩ : ∃ f1, f = f1 + 1 := ⟨f - 1, by omega⟩
    cases tl with
    | nil =>
      show jarrItems (f1 + 1) (jdumpV v ++ ']' :: rest2) = _
      simp only [jarrItems,
        jparse_jdump v hwf.1 f1 (by omega) (']' :: rest2) (Or.inr (Or.inl rfl)),
        skipWs_cons_not ']' rest2 (by decide)]
    | cons w tl2 =>
      have hsh : jitems (PyList.cons v (PyList.cons w tl2)) ++ ']' :: rest2
          = jdumpV v ++ (',' :: ' ' :: (jitems (.cons w tl2) ++ ']' :: rest2)) := by
        show (jdumpV v ++ (',' :: ' ' :: jitems (.cons w tl2))) ++ ']' :: rest2 = _
        simp
      rw [hsh]
      have hrec : jarrItems f1 (' ' :: (jitems (.cons w tl2) ++ ']' :: rest2))
          = .ok (.cons w tl2, rest2) := by
        rw [jarrItems_ws]
        exact jarrItems_jitems (.cons w tl2) hwf.2 (by simp) f1 (by omega) rest2
      simp only [jarrItems,
        jparse_jdump v hwf.1 f1 (by omega)
          (',' :: ' ' :: (jitems (.cons w tl2) ++ ']' :: rest2)) (Or.inl rfl),
        skipWs_cons_not ',' _ (by decide), hrec]
  termination_by xs => szL xs
  decreasing_by all_goals (subst_vars; first | (simp [szV, szL, szD]; omega) | simp [szV, szL, szD])

theorem jobjItems_jentries : ∀ kvs : PyDict, wfD kvs = true → kvs ≠ .nil →
    ∀ acc : PyDict, (∀ k2, hasKey kvs k2 = true → hasKey acc k2 = false) →
    ∀ f : Nat, 5 * szD kvs ≤ f → ∀ rest2 : Str,
    jobjItems f (jentries kvs ++ '\x7d' :: rest2) acc = .ok (dictApp acc kvs, rest2)
  | .nil, _, hne, _, _, _, _, _ => absurd rfl hne
  | .cons k v tl, hwf, _, acc, hacc, f, hf, rest2 => by
    rw [wfD] at hwf
    simp only [Bool.and_eq_true, Bool.not_eq_true'] at hwf
    obtain ⟨⟨hknotin, hwfv⟩, hwftl⟩ := hwf
    have h1 : szD (PyDict.cons k v tl) = szV v + szD tl + 1 := rfl
    have h2 := szV_pos v
    have h3 := szD_pos tl
    obtain ⟨f1, rfl⟩ : ∃ f1, f = f1 + 1 := ⟨f - 1, by omega⟩
    have hkfresh : hasKey acc k = false := by
      apply hacc
      rw [hasKey]
      simp
    have hfreshTl : ∀ k2, hasKey tl k2 = true →
        hasKey (dictApp acc (.cons k v .nil)) k2 = false := by
      intro k2 hk2
      rw [hasKey_dictApp]
      have ha : hasKey acc k2 = false := by
        apply hacc
        rw [hasKey, hk2]
        simp
      have hk : (k == k2) = false := by
        by_cases hkk : k = k2
        · subst hkk
          simp [hknotin] at hk2
        · simpa using hkk
      rw [ha, hasKey, hk, hasKey]
      rfl
    cases tl with
    | nil =>
      have hsh : jentries (PyDict.cons k v PyDict.nil) ++ '\x7d' :: rest2
          = '"' :: (jstr k ++ '"' :: (':' :: ' ' :: (jdumpV v ++ '\x7d' :: rest2))) := by
        show ('"' :: (jstr k ++ ('"' :: ':' :: ' ' :: jdumpV v))) ++ '\x7d' :: rest2 = _
        simp
      rw [hsh]
      have hjp : jparse f1 (' ' :: (jdumpV v ++ '\x7d' :: rest2))
          = .ok (v, '\x7d' :: rest2) := by
        rw [jparse_ws]
        exact jparse_jdump v hwfv f1 (by omega) _ (Or.inr (Or.inr rfl))
      simp only [jobjItems, jstrBody_jstr k _ _ (Nat.le_refl _),
        skipWs_cons_not ':' _ (by decide), hjp,
        skipWs_cons_not '\x7d' _ (by decide)]
      rw [dictInsert_fresh acc k v hkfresh]
    | cons k2 v2 tl2 =>
      have hsh : jentries (PyDict.cons k v (PyDict.cons k2 v2 tl2)) ++ '\x7d' :: rest2
          = '"' :: (jstr k ++ '"' :: (':' :: ' ' :: (jdumpV v
            ++ ',' :: ' ' :: (jentries (.cons k2 v2 tl2) ++ '\x7d' :: rest2)))) := by
        show (('"' :: (jstr k ++ ('"' :: ':' :: ' ' :: jdumpV v)))
          ++ (',' :: ' ' :: jentries (.cons k2 v2 tl2))) ++ '\x7d' :: rest2 = _
        simp
      rw [hsh]
      have hjp : jparse f1 (' ' :: (jdumpV v
          ++ ',' :: ' ' :: (jentries (.cons k2 v2 tl2) ++ '\x7d' :: rest2)))
          = .ok (v, ',' :: ' ' :: (jentries (.cons k2 v2 tl2) ++ '\x7d' :: rest2)) := by
        rw [jparse_ws]
        exact jparse_jdump v hwfv f1 (by omega) _ (Or.inl rfl)
      obtain ⟨t2, ht2⟩ := jentries_cons k2 v2 tl2
      have hrec : jobjItems f1 (skipWs (' ' :: (jentries (.cons k2 v2 tl2)
          ++ '\x7d' :: rest2))) (dictInsert acc k v)
          = .ok (dictApp (dictApp acc (.cons k v .nil)) (.cons k2 v2 tl2), rest2) := by
        rw [skipWs_cons_ws ' ' _ (by decide), ht2, List.cons_append,
          skipWs_cons_not '"' _ (by decide), ← List.cons_append, ← ht2,
          dictInsert_fresh acc k v hkfresh]
        exact jobjItems_jentries (.cons k2 v2 tl2) hwftl (by simp)
          (dictApp acc (.cons k v .nil)) hfreshTl f1 (by omega) rest2
      simp only [jobjItems, jstrBody_jstr k _ _ (Nat.le_refl _),
        skipWs_cons_not ':' _ (by decide), hjp,
        skipWs_cons_not ',' _ (by decide), hrec]
      rw [dictApp_assoc]
      rfl
  termination_by kvs => szD kvs
  decreasing_by all_goals (subst_vars; first | (simp [szV, szL, szD]; omega) | simp [szV, szL, szD])

end

mutual

theorem szV_le_jdump : ∀ v : PyVal, szV v + 1 ≤ 2 * (jdumpV v).length
  | .none => by simp [szV, jdumpV]
  | .bool b => by cases b <;> simp [szV, jdumpV]
  | .int i => by
    rw [jdumpV]
    by_cases hi : i < 0
    · obtain ⟨d, cs, hd⟩ := natDigs_head i.natAbs
      rw [if_pos hi, hd]
      simp [szV]
    · obtain ⟨d, cs, hd⟩ := natDigs_head i.toNat
      rw [if_neg hi, hd]
      simp [szV]
  | .str s => by
    rw [jdumpV]
    simp [szV]
  | .list xs => by
    have h := szL_le_jitems xs
    rw [jdumpV]
    have h1 : szV (PyVal.list xs) = szL xs + 1 := rfl
    simp only [List.length_cons, List.length_append, List.length_cons, List.length_nil]
    omega
  | .dict kvs => by
    have h := szD_le_jentries kvs
    rw [jdumpV]
    have h1 : szV (PyVal.dict kvs) = szD kvs + 1 := rfl
    simp only [List.length_cons, List.length_append, List.length_cons, List.length_nil]
    omega
  termination_by v => szV v
  decreasing_by all_goals (subst_vars; first | (simp [szV, szL, szD]; omega) | simp [szV, szL, szD])

theorem szL_le_jitems : ∀ xs : PyList, szL xs ≤ 2 * (jitems xs).length + 1
  | .nil => by simp [szL, jitems]
  | .cons v .nil => by
    have h := szV_le_jdump v
    have h1 : szL (PyList.cons v PyList.nil) = szV v + 2 := rfl
    rw [jitems]
    omega
  | .cons v (.cons w tl2) => by
    have h := szV_le_jdump v
    have h2 := szL_le_jitems (.cons w tl2)
    have h1 : szL (PyList.cons v (PyList.cons w tl2))
        = szV v + szL (PyList.cons w tl2) + 1 := rfl
    rw [jitems]
    · simp only [List.length_append, List.length_cons]
      omega
    · simp
  termination_by xs => szL xs
  decreasing_by all_goals (subst_vars; first | (simp [szV, szL, szD]; omega) | simp [szV, szL, szD])

theorem szD_le_jentries : ∀ kvs : PyDict, szD kvs ≤ 2 * (jentries kvs).length + 1
  | .nil => by simp [szD, jentries]
  | .cons k v .nil => by
    have h := szV_le_jdump v
    have h1 : szD (PyDict.cons k v PyDict.nil) = szV v + 2 := rfl
    rw [jentries]
    simp only [List.length_cons, List.length_append]
    omega
  | .cons k v (.cons k2 v2 tl2) => by
    have h := szV_le_jdump v
    have h2 := szD_le_jentries (.cons k2 v2 tl2)
    have h1 : szD (PyDict.cons k v (PyDict.cons k2 v2 tl2))
        = szV v + szD (PyDict.cons k2 v2 tl2) + 1 := rfl
    rw [jentries]
    · simp only [List.length_cons, List.length_append]
      omega
    · simp
  termination_by kvs => szD kvs
  decreasing_by all_goals (subst_vars; first | (simp [szV, szL, szD]; omega) | simp [szV, szL, szD])

end

/-- `json.loads` inverts `json.dumps` on well-formed values. -/
theorem jsonLoads_jdump (v : PyVal) (hwf : wfV v = true) :
    jsonLoads (jdumpV v) = .ok v := by
  have hle := szV_le_jdump v
  have hp : jparse (10 * (jdumpV v).length + 10) (jdumpV v) = .ok (v, []) := by
    have := jparse_jdump v hwf (10 * (jdumpV v).length + 10) (by omega) [] trivial
    rwa [List.append_nil] at this
  rw [jsonLoads, hp]
  rfl

/-! ### Range bounds on the serializer outputs

`json.dumps(..., ensure_ascii=True)` emits pure ASCII, so the later
`bytes(data, 'ascii')` in `dump_compress_encode` never fails; the pickle
model emits bytes below 256, which the base64 round-trip needs. -/

theorem hexC_ascii : ∀ d : Fin 16, (hexC d.val).toNat < 128 := by decide

theorem hex4_ascii (n : Nat) : ∀ x ∈ hex4 n, x.toNat < 128 := by
  intro x hx
  rw [hex4] at hx
  simp only [List.mem_cons, List.not_mem_nil, or_false] at hx
  rcases hx with rfl | rfl | rfl | rfl
  · exact hexC_ascii ⟨n / 4096 % 16, by omega⟩
  · exact hexC_ascii ⟨n / 256 % 16, by omega⟩
  · exact hexC_ascii ⟨n / 16 % 16, by omega⟩
  · exact hexC_ascii ⟨n % 16, by omega⟩

theorem uEsc_ascii (n : Nat) : ∀ x ∈ uEsc n, x.toNat < 128 := by
  intro x hx
  rw [uEsc] at hx
  by_cases h : n < 0x10000
  · rw [if_pos h] at hx
    rcases List.mem_cons.mp hx with rfl | hx
    · decide
    rcases List.mem_cons.mp hx with rfl | hx
    · decide
    exact hex4_ascii n x hx
  · rw [if_neg h] at hx
    rcases List.mem_append.mp hx with hx | hx <;>
      (rcases List.mem_cons.mp hx with rfl | hx
       · decide
       rcases List.mem_cons.mp hx with rfl | hx
       · decide
       exact hex4_ascii _ x hx)

theorem jchar_ascii (c : Char) : ∀ x ∈ jchar c, x.toNat < 128 := by
  intro x hx
  rw [jchar] at hx
  split_ifs at hx with h1 h2 h3 h4 h5 h6 h7 h8
  · simp only [List.mem_cons, List.not_mem_nil, or_false] at hx
    rcases hx with rfl | rfl <;> decide
  · simp only [List.mem_cons, List.not_mem_nil, or_false] at hx
    rcases hx with rfl | rfl <;> decide
  · simp only [List.mem_cons, List.not_mem_nil, or_false] at hx
    rcases hx with rfl | rfl <;> decide
  · simp only [List.mem_cons, List.not_mem_nil, or_false] at hx
    rcases hx with rfl | rfl <;> decide
  · simp only [List.mem_cons, List.not_mem_nil, or_false] at hx
    rcases hx with rfl | rfl <;> decide
  · simp only [List.mem_cons, List.not_mem_nil, or_false] at hx
    rcases hx with rfl | rfl <;> decide
  · simp only [List.mem_cons, List.not_mem_nil, or_false] at hx
    rcases hx with rfl | rfl <;> decide
  · exact uEsc_ascii _ x hx
  · simp only [List.mem_singleton] at hx
    subst hx
    omega

theorem jstr_ascii (s : Str) : ∀ x ∈ jstr s, x.toNat < 128 := by
  intro x hx
  rw [jstr, List.mem_flatten] at hx
  obtain ⟨l, hl, hxl⟩ := hx
  rw [List.mem_map] at hl
  obtain ⟨c, _, rfl⟩ := hl
  exact jchar_ascii c x hxl

theorem natDigs_ascii (n : Nat) : ∀ x ∈ natDigs n, x.toNat < 128 := by
  intro x hx
  obtain ⟨d, rfl⟩ := natDigsGo_shape n n x hx
  have h := (digitC_facts d).2.1
  have hd := d.isLt
  omega

mutual

theorem jdumpV_ascii : ∀ v : PyVal, ∀ x ∈ jdumpV v, x.toNat < 128
  | .none => by
    intro x hx
    have he : jdumpV PyVal.none = ['n', 'u', 'l', 'l'] := rfl
    rw [he] at hx
    have : ∀ x ∈ ['n', 'u', 'l', 'l'], x.toNat < 128 := by decide
    exact this x hx
  | .bool b => by
    intro x hx
    cases b
    · have he : jdumpV (PyVal.bool false) = ['f', 'a', 'l', 's', 'e'] := rfl
      rw [he] at hx
      have : ∀ x ∈ ['f', 'a', 'l', 's', 'e'], x.toNat < 128 := by decide
      exact this x hx
    · have he : jdumpV (PyVal.bool true) = ['t', 'r', 'u', 'e'] := rfl
      rw [he] at hx
      have : ∀ x ∈ ['t', 'r', 'u', 'e'], x.toNat < 128 := by decide
      exact this x hx
  | .int i => by
    intro x hx
    rw [jdumpV] at hx
    by_cases hi : i < 0
    · rw [if_pos hi] at hx
      rcases List.mem_cons.mp hx with rfl | hx
      · decide
      exact natDigs_ascii _ x hx
    · rw [if_neg hi] at hx
      exact natDigs_ascii _ x hx
  | .str s => by
    intro x hx
    have he : jdumpV (.str s) = '"' :: (jstr s ++ ['"']) := rfl
    rw [he] at hx
    rcases List.mem_cons.mp hx with rfl | hx
    · decide
    rcases List.mem_append.mp hx with hx | hx
    · exact jstr_ascii s x hx
    · have := List.mem_singleton.mp hx
      subst this
      decide
  | .list xs => by
    intro x hx
    have he : jdumpV (.list xs) = '[' :: (jitems xs ++ [']']) := rfl
    rw [he] at hx
    rcases List.mem_cons.mp hx with rfl | hx
    · decide
    rcases List.mem_append.mp hx with hx | hx
    · exact jitems_ascii xs x hx
    · have := List.mem_singleton.mp hx
      subst this
      decide
  | .dict kvs => by
    intro x hx
    have he : jdumpV (.dict kvs) = '\x7b' :: (jentries kvs ++ ['\x7d']) := rfl
    rw [he] at hx
    rcases List.mem_cons.mp hx with rfl | hx
    · decide
    rcases List.mem_append.mp hx with hx | hx
    · exact jentries_ascii kvs x hx
    · have := List.mem_singleton.mp hx
      subst this
      decide
  termination_by v => szV v
  decreasing_by all_goals (subst_vars; first | (simp [szV, szL, szD]; omega) | simp [szV, szL, szD])

theorem jitems_ascii : ∀ xs : PyList, ∀ x ∈ jitems xs, x.toNat < 128
  | .nil => by
    intro x hx
    have he : jitems PyList.nil = [] := rfl
    rw [he] at hx
    cases hx
  | .cons v .nil => by
    intro x hx
    have he : jitems (PyList.cons v PyList.nil) = jdumpV v := rfl
    rw [he] at hx
    exact jdumpV_ascii v x hx
  | .cons v (.cons w tl) => by
    intro x hx
    have he : jitems (PyList.cons v (PyList.cons w tl))
        = jdumpV v ++ (',' :: ' ' :: jitems (.cons w tl)) := rfl
    rw [he] at hx
    rcases List.mem_append.mp hx with hx | hx
    · exact jdumpV_ascii v x hx
    rcases List.mem_cons.mp hx with rfl | hx
    · decide
    rcases List.mem_cons.mp hx with rfl | hx
    · decide
    exact jitems_ascii (.cons w tl) x hx
  termination_by xs => szL xs
  decreasing_by all_goals (subst_vars; first | (simp [szV, szL, szD]; omega) | simp [szV, szL, szD])

theorem jentries_ascii : ∀ kvs : PyDict, ∀ x ∈ jentries kvs, x.toNat < 128
  | .nil => by
    intro x hx
    have he : jentries PyDict.nil = [] := rfl
    rw [he] at hx
    cases hx
  | .cons k v .nil => by
    intro x hx
    have he : jentries (PyDict.cons k v PyDict.nil)
        = '"' :: (jstr k ++ ('"' :: ':' :: ' ' :: jdumpV v)) := rfl
    rw [he] at hx
    rcases List.mem_cons.mp hx with rfl | hx
    · decide
    rcases List.mem_append.mp hx with hx | hx
    · exact jstr_ascii k x hx
    rcases List.mem_cons.mp hx with rfl | hx
    · decide
    rcases List.mem_cons.mp hx with rfl | hx
    · decide
    rcases List.mem_cons.mp hx with rfl | hx
    · decide
    exact jdumpV_ascii v x hx
  | .cons k v (.cons k2 v2 tl) => by
    intro x hx
    have he : jentries (PyDict.cons k v (PyDict.cons k2 v2 tl))
        = ('"' :: (jstr k ++ ('"' :: ':' :: ' ' :: jdumpV v)))
          ++ (',' :: ' ' :: jentries (.cons k2 v2 tl)) := rfl
    rw [he] at hx
    rcases List.mem_append.mp hx with hx | hx
    · rcases List.mem_cons.mp hx with rfl | hx
      · decide
      rcases List.mem_append.mp hx with hx | hx
      · exact jstr_ascii k x hx
      rcases List.mem_cons.mp hx with rfl | hx
      · decide
      rcases List.mem_cons.mp hx with rfl | hx
      · decide
      rcases List.mem_cons.mp hx with rfl | hx
      · decide
      exact jdumpV_ascii v x hx
    · rcases List.mem_cons.mp hx with rfl | hx
      · decide
      rcases List.mem_cons.mp hx with rfl | hx
      · decide
      exact jentries_ascii (.cons k2 v2 tl) x hx
  termination_by kvs => szD kvs
  decreasing_by all_goals (subst_vars; first | (simp [szV, szL, szD]; omega) | simp [szV, szL, szD])

end

theorem encStrP_lt_256 (s : Str) : ∀ b ∈ encStrP s, b < 256 := by
  intro b hb
  rw [encStrP] at hb
  rcases List.mem_append.mp hb with hb | hb
  · exact encNat_lt_256 _ b hb
  · rw [List.mem_flatten] at hb
    obtain ⟨l, hl, hbl⟩ := hb
    rw [List.mem_map] at hl
    obtain ⟨c, _, rfl⟩ := hl
    exact encNat_lt_256 _ b hbl

mutual

theorem pdumpV_lt_256 : ∀ v : PyVal, ∀ b ∈ pdumpV v, b < 256
  | .none => by
    intro b hb
    have he : pdumpV PyVal.none = [0x10] := rfl
    rw [he] at hb
    simp only [List.mem_singleton] at hb
    omega
  | .bool bb => by
    intro b hb
    have he : pdumpV (PyVal.bool bb) = [0x11, if bb then 1 else 0] := rfl
    rw [he] at hb
    rcases List.mem_cons.mp hb with rfl | hb
    · omega
    simp only [List.mem_singleton] at hb
    subst hb
    cases bb <;> decide
  | .int i => by
    intro b hb
    have he : pdumpV (PyVal.int i)
        = 0x12 :: (if i < 0 then 1 else 0) :: encNat i.natAbs := rfl
    rw [he] at hb
    rcases List.mem_cons.mp hb with rfl | hb
    · omega
    rcases List.mem_cons.mp hb with rfl | hb
    · by_cases hi : i < 0
      · rw [if_pos hi]; omega
      · rw [if_neg hi]; omega
    exact encNat_lt_256 _ b hb
  | .str s => by
    intro b hb
    have he : pdumpV (PyVal.str s) = 0x13 :: encStrP s := rfl
    rw [he] at hb
    rcases List.mem_cons.mp hb with rfl | hb
    · omega
    exact encStrP_lt_256 s b hb
  | .list xs => by
    intro b hb
    have he : pdumpV (PyVal.list xs) = 0x14 :: (pdumpL xs ++ [0x00]) := rfl
    rw [he] at hb
    rcases List.mem_cons.mp hb with rfl | hb
    · omega
    rcases List.mem_append.mp hb with hb | hb
    · exact pdumpL_lt_256 xs b hb
    · simp only [List.mem_singleton] at hb
      omega
  | .dict kvs => by
    intro b hb
    have he : pdumpV (PyVal.dict kvs) = 0x15 :: (pdumpD kvs ++ [0x00]) := rfl
    rw [he] at hb
    rcases List.mem_cons.mp hb with rfl | hb
    · omega
    rcases List.mem_append.mp hb with hb | hb
    · exact pdumpD_lt_256 kvs b hb
    · simp only [List.mem_singleton] at hb
      omega
  termination_by v => szV v
  decreasing_by all_goals (subst_vars; first | (simp [szV, szL, szD]; omega) | simp [szV, szL, szD])

theorem pdumpL_lt_256 : ∀ xs : PyList, ∀ b ∈ pdumpL xs, b < 256
  | .nil => by
    intro b hb
    have he : pdumpL PyList.nil = [] := rfl
    rw [he] at hb
    cases hb
  | .cons v tl => by
    intro b hb
    have he : pdumpL (PyList.cons v tl) = 0x01 :: (pdumpV v ++ pdumpL tl) := rfl
    rw [he] at hb
    rcases List.mem_cons.mp hb with rfl | hb
    · omega
    rcases List.mem_append.mp hb with hb | hb
    · exact pdumpV_lt_256 v b hb
    · exact pdumpL_lt_256 tl b hb
  termination_by xs => szL xs
  decreasing_by all_goals (subst_vars; first | (simp [szV, szL, szD]; omega) | simp [szV, szL, szD])

theorem pdumpD_lt_256 : ∀ kvs : PyDict, ∀ b ∈ pdumpD kvs, b < 256
  | .nil => by
    intro b hb
    have he : pdumpD PyDict.nil = [] := rfl
    rw [he] at hb
    cases hb
  | .cons k v tl => by
    intro b hb
    have he : pdumpD (PyDict.cons k v tl)
        = 0x01 :: (encStrP k ++ pdumpV v ++ pdumpD tl) := rfl
    rw [he] at hb
    rcases List.mem_cons.mp hb with rfl | hb
    · omega
    rcases List.mem_append.mp hb with hb | hb
    · rcases List.mem_append.mp hb with hb | hb
      · exact encStrP_lt_256 k b hb
      · exact pdumpV_lt_256 v b hb
    · exact pdumpD_lt_256 tl b hb
  termination_by kvs => szD kvs
  decreasing_by all_goals (subst_vars; first | (simp [szV, szL, szD]; omega) | simp [szV, szL, szD])

end

theorem pickleDumps_lt_256 (v : PyVal) : ∀ b ∈ pickleDumps v, b < 256 := by
  intro b hb
  rw [pickleDumps] at hb
  rcases List.mem_cons.mp hb with rfl | hb
  · omega
  rcases List.mem_cons.mp hb with rfl | hb
  · omega
  rcases List.mem_append.mp hb with hb | hb
  · exact pdumpV_lt_256 v b hb
  · simp only [List.mem_singleton] at hb
    omega

/-! ### The gzip library pair

Modelled like the zlib pair: stored DEFLATE blocks, here inside the gzip
member framing (fixed ten-byte header with no optional fields, CRC-32 and
modular length trailer). -/

/-- One bit step of the reflected CRC-32 polynomial division. -/
def crcBit (c : Nat) : Nat := if c % 2 = 1 then (c / 2) ^^^ 0xEDB88320 else c / 2

/-- Iterated bit steps. -/
def crcBits : Nat → Nat → Nat
  | 0, c => c
  | k + 1, c => crcBits k (crcBit c)

/-- The CRC-32 checksum gzip stores, in its standard bitwise form. -/
def crc32 (d : Bytes) : Nat :=
  0xFFFFFFFF ^^^ d.foldl (fun c b => crcBits 8 (c ^^^ b % 256)) 0xFFFFFFFF

/-- Four little-endian bytes of a 32-bit value. -/
def le4 (n : Nat) : Bytes := [n % 256, n / 256 % 256, n / 65536 % 256, n / 16777216 % 256]

/-- `gzip.compress` (level-0 framing, zero mtime): the ten-byte member
header, the stored DEFLATE blocks, then the CRC-32 of the input and its
length modulo `2^32`, little endian. -/
def gzipLibCompress (d : Bytes) : Bytes :=
  [0x1f, 0x8b, 8, 0, 0, 0, 0, 0, 2, 0xff]
    ++ blocksEnc d.length d ++ (le4 (crc32 d) ++ le4 (d.length % 4294967296))

/-- `gzip.decompress` on a single member with no optional header fields:
check the magic and method bytes, inflate the stored blocks, verify the
trailer; every failure is reported as a bad stream. -/
def gzipLibDecompress : Bytes → Except PyErr Bytes
  | 0x1f :: 0x8b :: 8 :: 0 :: _ :: _ :: _ :: _ :: _ :: _ :: rest =>
    (match blocksDec rest.length rest with
     | some (d, tr) =>
       if tr = le4 (crc32 d) ++ le4 (d.length % 4294967296) then .ok d
       else .error .zlibError
     | Option.none => .error .zlibError)
  | _ => .error .zlibError

/-- The gzip library pair round-trips on every byte sequence. -/
theorem gzipLibDecompress_gzipLibCompress (d : Bytes) :
    gzipLibDecompress (gzipLibCompress d) = .ok d := by
  unfold gzipLibCompress
  simp only [List.cons_append, List.nil_append, gzipLibDecompress]
  have hfuel : (blocksEnc d.length d ++ (le4 (crc32 d)
      ++ le4 (d.length % 4294967296))).length ≥ d.length := by
    simp only [List.length_append]
    have := blocksEnc_length_ge d.length d (by omega)
    omega
  rw [blocksDec_blocksEnc d.length _ hfuel d _ (by omega)]
  simp

/-! ### The byte/text wrappers and the codec pipeline (PY3 path) -/

/-- A Python 3 `str` or `bytes` value, where the code can receive either. -/
inductive PyStrBytes where
  | str (s : Str)
  | bytes (b : Bytes)

/-- `bytes(s, 'latin-1')`. -/
def latin1Encode (s : Str) : Except PyErr Bytes :=
  if s.all (fun c => c.toNat < 256) then .ok (s.map Char.toNat)
  else .error .unicodeEncodeError

/-- `bytes(s, 'ascii')`. -/
def asciiEncode (s : Str) : Except PyErr Bytes :=
  if s.all (fun c => c.toNat < 128) then .ok (s.map Char.toNat)
  else .error .unicodeEncodeError

/-- `gzip_compress` (PY3 path): `bytes(data, 'latin-1')` raises `TypeError`
when `data` is already `bytes`, else encodes and compresses. -/
def gzip_compress : PyStrBytes → Except PyErr Bytes
  | .bytes _ => .error .typeError
  | .str s =>
    match latin1Encode s with
    | .ok b => .ok (gzipLibCompress b)
    | .error e => .error e

/-- `gzip_decompress` (PY3 path): plain `gzip.decompress`. -/
def gzip_decompress (d : Bytes) : Except PyErr Bytes := gzipLibDecompress d

/-- The first argument of `decode_uncompress_load`: a single `str`, or a
sequence whose elements are `str` or `bytes`. -/
inductive DecInput where
  | str (s : Str)
  | list (l : List PyStrBytes)

/-- The PY3 conversion loop of `join`: its `str_data` result is discarded,
but `x.decode('utf-8')` can raise before the final `join` runs. -/
def joinLoop : List PyStrBytes → Except PyErr (List Str)
  | [] => .ok []
  | .str s :: tl =>
    (match joinLoop tl with
     | .ok r => .ok (s :: r)
     | .error e => .error e)
  | .bytes b :: tl =>
    (match utf8Decode b with
     | some s =>
       match joinLoop tl with
       | .ok r => .ok (s :: r)
       | .error e => .error e
     | Option.none => .error .unicodeDecodeError)

/-- `with_str.join` on the original elements: concatenation with the
separator in between, `TypeError` at a non-`str` element. -/
def strJoin (sep : Str) : List PyStrBytes → Except PyErr Str
  | [] => .ok []
  | [.str s] => .ok s
  | .str s :: x :: tl =>
    (match strJoin sep (x :: tl) with
     | .ok r => .ok (s ++ sep ++ r)
     | .error e => .error e)
  | .bytes _ :: _ => .error .typeError

/-- `join(data, with_str)` (PY3 path): run the conversion loop, then
return `with_str.join(data)` on the original `data`; iterating a `str`
yields its characters as one-character strings. -/
def joinPy (data : DecInput) (sep : Str) : Except PyErr Str :=
  match data with
  | .str s => strJoin sep (s.map (fun c => PyStrBytes.str [c]))
  | .list l =>
    match joinLoop l with
    | .ok _ => strJoin sep l
    | .error e => .error e

/-- The unchunked or chunked result of `dump_compress_encode`. -/
inductive EncOut where
  | text (s : Str)
  | chunks (l : List Str)

/-- The chunk comprehension `[p[i:i + n] for i in range(0, len(p), n)]`:
`range` raises `ValueError` on a zero step, is empty on a negative step
with a nonnegative stop, and on a positive step counts
`ceil(len(p) / n)` indices `0, n, 2n, ...`; each slice takes up to `n`
characters from its start index. -/
def chunkSplit (p : Str) (n : Int) : Except PyErr (List Str) :=
  if n = 0 then .error .valueError
  else if n < 0 then .ok []
  else .ok ((List.range' 0 ((p.length + n.toNat - 1) / n.toNat) n.toNat).map
    (fun i => (p.drop i).take n.toNat))

/-- `serializer.dumps` under the PY3 path of `dump_compress_encode`,
including the `bytes(data, 'ascii')` conversion applied when the
serializer returned `str` (json does; pickle already returns `bytes`). -/
def serializerDumpsBytes (useJson : Bool) (v : PyVal) : Except PyErr Bytes :=
  if useJson then asciiEncode (jdumpV v) else .ok (pickleDumps v)

/-- `dump_compress_encode` (PY3 path). -/
def dump_compress_encode (v : PyVal) (useJson : Bool) (chunkSize : Option Int) :
    Except PyErr EncOut :=
  match serializerDumpsBytes useJson v with
  | .error e => .error e
  | .ok data =>
    match chunkSize with
    | Option.none => .ok (.text (b64encode (zlibCompress data)))
    | some n =>
      match chunkSplit (b64encode (zlibCompress data)) n with
      | .ok cs => .ok (.chunks cs)
      | .error e => .error e

/-- `json.loads` applied to `bytes`: CPython first decodes them as
UTF-8. -/
def jsonLoadsBytes (b : Bytes) : Except PyErr PyVal :=
  match utf8Decode b with
  | some s => jsonLoads s
  | Option.none => .error .unicodeDecodeError

/-- `cPickle.loads` applied to `str` raises `TypeError`. -/
def pickleLoadsStr (_ : Str) : Except PyErr PyVal := .error .typeError

/-- `decode_uncompress_load` (PY3 path): join, base64-decode, decompress;
then the UTF-8 probe turns `data` into `str` when it succeeds (the inner
`cPickle.loads` probe in the failure branch only prints and changes
nothing), and the selected serializer loads whatever `data` now is. -/
def decode_uncompress_load (input : DecInput) (useJson : Bool) :
    Except PyErr PyVal :=
  match joinPy input [] with
  | .error e => .error e
  | .ok string =>
    match b64decode string with
    | .error e => .error e
    | .ok comp =>
      match zlibDecompress comp with
      | .error e => .error e
      | .ok data =>
        match utf8Decode data with
        | some s => if useJson then jsonLoads s else pickleLoadsStr s
        | Option.none => if useJson then jsonLoadsBytes data else pickleLoads data

/-! ### Facts about `join` -/

theorem joinLoop_str_map : ∀ ss : List Str,
    joinLoop (ss.map PyStrBytes.str) = .ok ss
  | [] => rfl
  | s :: tl => by
    simp only [List.map_cons, joinLoop, joinLoop_str_map tl]

theorem strJoin_nil_sep : ∀ ss : List Str,
    strJoin [] (ss.map PyStrBytes.str) = .ok ss.flatten
  | [] => rfl
  | [s] => by simp [strJoin]
  | s :: x :: tl => by
    have ih := strJoin_nil_sep (x :: tl)
    simp only [List.map_cons] at ih ⊢
    rw [strJoin, ih]
    simp

theorem flatten_singletons : ∀ s : Str, (s.map (fun c => [c])).flatten = s
  | [] => rfl
  | c :: tl => by simp [flatten_singletons tl]

/-- `join` of a single string with the empty separator is the string. -/
theorem joinPy_str (s : Str) : joinPy (.str s) [] = .ok s := by
  rw [joinPy]
  have h := strJoin_nil_sep (s.map (fun c => [c]))
  rw [List.map_map] at h
  rw [flatten_singletons] at h
  exact h

/-- `join` of a list of strings with the empty separator concatenates. -/
theorem joinPy_strs (ss : List Str) :
    joinPy (.list (ss.map PyStrBytes.str)) [] = .ok ss.flatten := by
  rw [joinPy, joinLoop_str_map, strJoin_nil_sep]

/-! ### Chunk shape facts -/

theorem range'_shift (n : Nat) : ∀ (k s : Nat),
    List.range' s k n = (List.range' 0 k n).map (fun i => i + s)
  | 0, _ => rfl
  | k + 1, s => by
    rw [List.range'_succ, List.range'_succ]
    simp only [Nat.zero_add, List.map_cons]
    rw [range'_shift n k (s + n), range'_shift n k n, List.map_map]
    refine congrArg _ ?_
    refine List.map_congr_left ?_
    intro a _
    simp only [Function.comp]
    omega

/-- Ordered concatenation of the slices reconstructs the input. -/
theorem chunk_concat (n : Nat) (hn : 0 < n) : ∀ (k : Nat) (p : Str), p.length ≤ k * n →
    ((List.range' 0 k n).map (fun i => (p.drop i).take n)).flatten = p
  | 0, p, hp => by
    have hp0 : p = [] := List.eq_nil_of_length_eq_zero (by omega)
    subst hp0
    rfl
  | k + 1, p, hp => by
    rw [List.range'_succ]
    simp only [List.map_cons, List.flatten_cons, Nat.zero_add, List.drop_zero]
    rw [range'_shift n k n, List.map_map]
    have hmap : ∀ i ∈ List.range' 0 k n,
        ((fun i => (p.drop i).take n) ∘ (fun i => i + n)) i
          = (fun i => (((p.drop n).drop i).take n)) i := by
      intro i _
      simp only [Function.comp]
      rw [List.drop_drop, Nat.add_comm]
    rw [List.map_congr_left hmap]
    have hexp : (k + 1) * n = k * n + n := by ring
    rw [chunk_concat n hn k (p.drop n) (by simp only [List.length_drop]; omega)]
    exact List.take_append_drop n p

/-- The index count of `range(0, L, n)` is the ceiling of `L / n`. -/
theorem chunk_count (L n : Nat) (hn : 0 < n) :
    (L + n - 1) / n = if L % n = 0 then L / n else L / n + 1 := by
  have hqm := Nat.div_add_mod L n
  have hm : L % n < n := Nat.mod_lt _ hn
  by_cases hm0 : L % n = 0
  · rw [if_pos hm0]
    have h1 : L + n - 1 = (n - 1) + n * (L / n) := by omega
    rw [h1, Nat.add_mul_div_left _ _ hn, Nat.div_eq_of_lt (by omega)]
    omega
  · rw [if_neg hm0]
    have hexp : n * (L / n + 1) = n * (L / n) + n := by ring
    have h1 : L + n - 1 = (L % n - 1) + n * (L / n + 1) := by omega
    rw [h1, Nat.add_mul_div_left _ _ hn, Nat.div_eq_of_lt (by omega)]
    omega

/-- The `i`-th chunk is the slice starting at `i * n`. -/
theorem chunk_getD (p : Str) (n k i : Nat) (hi : i < k) :
    ((List.range' 0 k n).map (fun j => (p.drop j).take n)).getD i []
      = (p.drop (i * n)).take n := by
  have hlen : i < ((List.range' 0 k n).map (fun j => (p.drop j).take n)).length := by
    simp only [List.length_map, List.length_range']
    omega
  rw [List.getD_eq_getElem _ _ hlen]
  simp only [List.getElem_map, List.getElem_range']
  congr 1
  ring

/-- With the ceiling count, the indexed slices cover the whole input. -/
theorem chunk_flatten (p : Str) (nn : Nat) (hn : 0 < nn) :
    ((List.range' 0 ((p.length + nn - 1) / nn) nn).map
      (fun i => (p.drop i).take nn)).flatten = p := by
  apply chunk_concat nn hn
  have hcc := chunk_count p.length nn hn
  have hqm := Nat.div_add_mod p.length nn
  by_cases hm0 : p.length % nn = 0
  · rw [hcc, if_pos hm0]
    have hco : (p.length / nn) * nn = nn * (p.length / nn) := by ring
    omega
  · rw [hcc, if_neg hm0]
    have hmlt : p.length % nn < nn := Nat.mod_lt _ hn
    have hco : (p.length / nn + 1) * nn = nn * (p.length / nn) + nn := by ring
    omega

/-- A positive chunk size never errors and yields the indexed slices. -/
theorem chunkSplit_pos (p : Str) (n : Int) (hn : 0 < n) :
    chunkSplit p n = .ok ((List.range' 0 ((p.length + n.toNat - 1) / n.toNat) n.toNat).map
      (fun i => (p.drop i).take n.toNat)) := by
  rw [chunkSplit, if_neg (by omega), if_neg (by omega)]

/-! ### The composed pipeline -/

theorem asciiEncode_jdump (v : PyVal) :
    asciiEncode (jdumpV v) = .ok ((jdumpV v).map Char.toNat) := by
  rw [asciiEncode, if_pos]
  rw [List.all_eq_true]
  intro c hc
  simpa using jdumpV_ascii v c hc

theorem jdump_bytes_lt_256 (v : PyVal) : ∀ b ∈ (jdumpV v).map Char.toNat, b < 256 := by
  intro b hb
  rw [List.mem_map] at hb
  obtain ⟨c, hc, rfl⟩ := hb
  have := jdumpV_ascii v c hc
  omega

/-- A decode input that joins to `s` decodes exactly like the single
string `s`. -/
theorem decode_eq_of_join (input : DecInput) (s : Str) (useJson : Bool)
    (h : joinPy input [] = .ok s) :
    decode_uncompress_load input useJson = decode_uncompress_load (.str s) useJson := by
  rw [decode_uncompress_load, decode_uncompress_load, h, joinPy_str]

/-- Decoding the encoded text of the json path recovers the value. -/
theorem decode_json_text (v : PyVal) (hwf : wfV v = true) :
    decode_uncompress_load
      (.str (b64encode (zlibCompress ((jdumpV v).map Char.toNat)))) true = .ok v := by
  simp only [decode_uncompress_load, joinPy_str,
    b64decode_b64encode _ (zlibCompress_lt_256 _ (jdump_bytes_lt_256 v)),
    zlibDecompress_zlibCompress, utf8Decode_ascii _ (jdumpV_ascii v)]
  rw [if_pos trivial]
  exact jsonLoads_jdump v hwf

/-- Decoding the encoded text of the pickle path recovers the value. -/
theorem decode_pickle_text (v : PyVal) (hwf : wfV v = true) :
    decode_uncompress_load
      (.str (b64encode (zlibCompress (pickleDumps v)))) false = .ok v := by
  have hu : utf8Decode (pickleDumps v) = Option.none := utf8Decode_0x80 _
  simp only [decode_uncompress_load, joinPy_str,
    b64decode_b64encode _ (zlibCompress_lt_256 _ (pickleDumps_lt_256 v)),
    zlibDecompress_zlibCompress, hu]
  rw [if_neg Bool.false_ne_true]
  exact pickleLoads_pickleDumps v hwf

/-- The unchunked encode result, per selector. -/
theorem encode_text (v : PyVal) (useJson : Bool) :
    dump_compress_encode v useJson Option.none
      = .ok (.text (b64encode (zlibCompress
          (if useJson then (jdumpV v).map Char.toNat else pickleDumps v)))) := by
  cases useJson
  · rfl
  · simp [dump_compress_encode, serializerDumpsBytes, asciiEncode_jdump v]

/-- The chunked encode result, per selector, for a positive chunk size. -/
theorem encode_chunks (v : PyVal) (useJson : Bool) (n : Int) (hn : 0 < n) :
    dump_compress_encode v useJson (some n)
      = .ok (.chunks ((List.range' 0
          (((b64encode (zlibCompress (if useJson then (jdumpV v).map Char.toNat
              else pickleDumps v))).length + n.toNat - 1) / n.toNat) n.toNat).map
          (fun i => ((b64encode (zlibCompress (if useJson then (jdumpV v).map Char.toNat
              else pickleDumps v))).drop i).take n.toNat))) := by
  cases useJson
  · simp [dump_compress_encode, serializerDumpsBytes, chunkSplit_pos _ n hn]
  · simp [dump_compress_encode, serializerDumpsBytes, asciiEncode_jdump v,
      chunkSplit_pos _ n hn]

/-- A nonempty byte sequence has a nonempty base64 encoding. -/
theorem b64encode_ne_nil (a : Nat) (l : List Nat) : b64encode (a :: l) ≠ [] := by
  match l with
  | [] => simp [b64encode]
  | [b] => simp [b64encode]
  | b :: c :: rest => simp [b64encode]

/-- `str.join` raises `TypeError` whenever the sequence holds a `bytes`
element. -/
theorem strJoin_bytes : ∀ (sep : Str) (l : List PyStrBytes) (b : Bytes),
    PyStrBytes.bytes b ∈ l → ∃ e, strJoin sep l = .error e
  | _, [], _, hb => absurd hb (List.not_mem_nil _)
  | _, .bytes _ :: _, _, _ => ⟨.typeError, rfl⟩
  | sep, .str s :: tl, b, hb => by
    have hbtl : PyStrBytes.bytes b ∈ tl := by
      rcases List.mem_cons.mp hb with h | h
      · exact PyStrBytes.noConfusion h
      · exact h
    match tl, hbtl with
    | x2 :: tl2, hbtl =>
      obtain ⟨e, he⟩ := strJoin_bytes sep (x2 :: tl2) b hbtl
      refine ⟨e, ?_⟩
      rw [strJoin, he]

/-- The scenario value of the spec: `{"a": 1, "b": [2, 3]}`. -/
def vScen : PyVal :=
  .dict (.cons ['a'] (.int 1)
    (.cons ['b'] (.list (.cons (.int 2) (.cons (.int 3) .nil))) .nil))

/-! ### The claims -/

/-- C1: for every well-formed value and both format selectors, decoding the
unchunked encoding with the same selector returns the original value. -/
theorem C1_roundtrip_unchunked (v : PyVal) (useJson : Bool) (hwf : wfV v = true) :
    ∃ p : Str, dump_compress_encode v useJson Option.none = .ok (.text p)
      ∧ decode_uncompress_load (.str p) useJson = .ok v := by
  refine ⟨_, encode_text v useJson, ?_⟩
  cases useJson
  · exact decode_pickle_text v hwf
  · exact decode_json_text v hwf

theorem C1_witness : wfV vScen = true
    ∧ ∃ p : Str, dump_compress_encode vScen true Option.none = .ok (.text p)
      ∧ decode_uncompress_load (.str p) true = .ok vScen :=
  ⟨by decide, C1_roundtrip_unchunked vScen true (by decide)⟩

/-- C2: for every well-formed value, both selectors and every positive
chunk size, the chunk sequence decodes back to the original value. -/
theorem C2_roundtrip_chunked (v : PyVal) (useJson : Bool) (n : Int) (hn : 0 < n)
    (hwf : wfV v = true) :
    ∃ cs : List Str, dump_compress_encode v useJson (some n) = .ok (.chunks cs)
      ∧ decode_uncompress_load (.list (cs.map PyStrBytes.str)) useJson = .ok v := by
  have hnn : (0 : Nat) < n.toNat := by omega
  refine ⟨_, encode_chunks v useJson n hn, ?_⟩
  have hj := joinPy_strs ((List.range' 0
      (((b64encode (zlibCompress (if useJson then (jdumpV v).map Char.toNat
          else pickleDumps v))).length + n.toNat - 1) / n.toNat) n.toNat).map
      (fun i => ((b64encode (zlibCompress (if useJson then (jdumpV v).map Char.toNat
          else pickleDumps v))).drop i).take n.toNat))
  rw [chunk_flatten _ _ hnn] at hj
  rw [decode_eq_of_join _ _ useJson hj]
  cases useJson
  · exact decode_pickle_text v hwf
  · exact decode_json_text v hwf

theorem C2_witness : (0 : Int) < 8 ∧ wfV vScen = true
    ∧ ∃ cs : List Str, dump_compress_encode vScen true (some 8) = .ok (.chunks cs)
      ∧ decode_uncompress_load (.list (cs.map PyStrBytes.str)) true = .ok vScen :=
  ⟨by decide, by decide, C2_roundtrip_chunked vScen true 8 (by decide) (by decide)⟩

/-- C3: the decompressed bytes of a pickle payload are never valid UTF-8
(the protocol header starts `0x80`), and decode treats them as the opaque
pickle payload and succeeds rather than raising. -/
theorem C3_utf8_fallback (v : PyVal) (hwf : wfV v = true) :
    utf8Decode (pickleDumps v) = Option.none
      ∧ ∃ p : Str, dump_compress_encode v false Option.none = .ok (.text p)
          ∧ decode_uncompress_load (.str p) false = .ok v :=
  ⟨utf8Decode_0x80 _, _, encode_text v false, decode_pickle_text v hwf⟩

theorem C3_witness : wfV vScen = true
    ∧ (utf8Decode (pickleDumps vScen) = Option.none
      ∧ ∃ p : Str, dump_compress_encode vScen false Option.none = .ok (.text p)
          ∧ decode_uncompress_load (.str p) false = .ok vScen) :=
  ⟨by decide, C3_utf8_fallback vScen (by decide)⟩

/-- C4: for every text and positive chunk size `n`, the split yields
`ceil(L/n)` chunks, each of length `n` except the last, whose length is
`L mod n` (or `n` when the length is an exact multiple, in which case
there are exactly `L/n` full chunks and no trailing empty chunk), and
ordered concatenation reconstructs the text. -/
theorem C4_chunk_shape (p : Str) (n : Int) (hn : 0 < n) :
    ∃ cs : List Str, chunkSplit p n = .ok cs
      ∧ cs.length = (p.length + n.toNat - 1) / n.toNat
      ∧ (∀ i : Nat, i + 1 < cs.length → (cs.getD i []).length = n.toNat)
      ∧ (0 < p.length → (cs.getD (cs.length - 1) []).length
            = (if p.length % n.toNat = 0 then n.toNat else p.length % n.toNat))
      ∧ (p.length % n.toNat = 0 →
          cs.length = p.length / n.toNat ∧ ∀ c ∈ cs, c.length = n.toNat)
      ∧ cs.flatten = p := by
  have hnn : (0 : Nat) < n.toNat := by omega
  have hcc := chunk_count p.length n.toNat hnn
  have hqm := Nat.div_add_mod p.length n.toNat
  have hmlt : p.length % n.toNat < n.toNat := Nat.mod_lt _ hnn
  have hklen : ((List.range' 0 ((p.length + n.toNat - 1) / n.toNat) n.toNat).map
      (fun i => (p.drop i).take n.toNat)).length
        = (p.length + n.toNat - 1) / n.toNat := by
    simp [List.length_map, List.length_range']
  refine ⟨_, chunkSplit_pos p n hn, hklen, ?_, ?_, ?_, chunk_flatten p n.toNat hnn⟩
  · -- every chunk before the last has the full size
    intro i hi
    rw [hklen] at hi
    rw [chunk_getD p n.toNat _ i (by omega), List.length_take, List.length_drop]
    by_cases hm0 : p.length % n.toNat = 0
    · rw [hcc, if_pos hm0] at hi
      have h2 : (i + 2) * n.toNat ≤ (p.length / n.toNat) * n.toNat :=
        Nat.mul_le_mul_right _ (by omega)
      have e1 : (i + 2) * n.toNat = i * n.toNat + n.toNat + n.toNat := by ring
      have e2 : (p.length / n.toNat) * n.toNat = n.toNat * (p.length / n.toNat) := by
        ring
      omega
    · rw [hcc, if_neg hm0] at hi
      have h2 : (i + 1) * n.toNat ≤ (p.length / n.toNat) * n.toNat :=
        Nat.mul_le_mul_right _ (by omega)
      have e1 : (i + 1) * n.toNat = i * n.toNat + n.toNat := by ring
      have e2 : (p.length / n.toNat) * n.toNat = n.toNat * (p.length / n.toNat) := by
        ring
      omega
  · -- the last chunk has the remainder size
    intro hL
    have hk1 : 1 ≤ (p.length + n.toNat - 1) / n.toNat := by
      by_cases hm0 : p.length % n.toNat = 0
      · rw [hcc, if_pos hm0]
        have hnle : ¬(p.length < n.toNat) := by
          intro hcon
          rw [Nat.mod_eq_of_lt hcon] at hm0
          omega
        exact (Nat.one_le_div_iff hnn).mpr (by omega)
      · rw [hcc, if_neg hm0]
        exact Nat.succ_le_succ (Nat.zero_le _)
    rw [hklen, chunk_getD p n.toNat _ _ (by omega), List.length_take, List.length_drop]
    by_cases hm0 : p.length % n.toNat = 0
    · rw [if_pos hm0]
      rw [hcc, if_pos hm0] at hk1 ⊢
      have e3 : (p.length / n.toNat - 1) * n.toNat + n.toNat
          = (p.length / n.toNat) * n.toNat := by
        have hq : p.length / n.toNat - 1 + 1 = p.length / n.toNat := by omega
        calc (p.length / n.toNat - 1) * n.toNat + n.toNat
            = (p.length / n.toNat - 1 + 1) * n.toNat := by ring
          _ = (p.length / n.toNat) * n.toNat := by rw [hq]
      have e2 : (p.length / n.toNat) * n.toNat = n.toNat * (p.length / n.toNat) := by
        ring
      omega
    · rw [if_neg hm0]
      rw [hcc, if_neg hm0] at hk1 ⊢
      have e4 : (p.length / n.toNat + 1 - 1) * n.toNat
          = n.toNat * (p.length / n.toNat) := by
        simp only [Nat.add_sub_cancel]
        ring
      omega
  · -- an exact multiple gives only full chunks
    intro hm0
    constructor
    · rw [hklen, hcc, if_pos hm0]
    · intro c hc
      rw [List.mem_map] at hc
      obtain ⟨i, hir, rfl⟩ := hc
      rw [List.mem_range'] at hir
      obtain ⟨j, hj, rfl⟩ := hir
      rw [hcc, if_pos hm0] at hj
      rw [List.length_take, List.length_drop]
      have h2 : n.toNat * (j + 1) ≤ n.toNat * (p.length / n.toNat) :=
        Nat.mul_le_mul_left _ (by omega)
      have e1 : n.toNat * (j + 1) = n.toNat * j + n.toNat := by ring
      omega

theorem C4_witness : (0 : Int) < 2
    ∧ ∃ cs : List Str, chunkSplit ['x', 'y', 'z'] 2 = .ok cs
      ∧ cs.length = (List.length ['x', 'y', 'z'] + Int.toNat 2 - 1) / Int.toNat 2
      ∧ (∀ i : Nat, i + 1 < cs.length → (cs.getD i []).length = Int.toNat 2)
      ∧ (0 < List.length ['x', 'y', 'z'] → (cs.getD (cs.length - 1) []).length
            = (if List.length ['x', 'y', 'z'] % Int.toNat 2 = 0 then Int.toNat 2
               else List.length ['x', 'y', 'z'] % Int.toNat 2))
      ∧ (List.length ['x', 'y', 'z'] % Int.toNat 2 = 0 →
          cs.length = List.length ['x', 'y', 'z'] / Int.toNat 2
            ∧ ∀ c ∈ cs, c.length = Int.toNat 2)
      ∧ cs.flatten = ['x', 'y', 'z'] :=
  ⟨by decide, C4_chunk_shape ['x', 'y', 'z'] 2 (by decide)⟩

/-- C5 (amended): a zero chunk size raises the builtin `ValueError` from
`range`, but a negative chunk size silently yields the empty chunk list;
no `InvalidConfiguration` validation exists. -/
theorem C5_chunk_size_validation (p : Str) (n : Int) :
    (n = 0 → chunkSplit p n = .error .valueError)
      ∧ (n < 0 → chunkSplit p n = .ok []) := by
  constructor
  · intro h
    subst h
    rfl
  · intro h
    rw [chunkSplit, if_neg (by omega), if_pos h]

/-- C5 counterexample: a negative chunk size does not fail; the whole
encode silently returns an empty chunk list. -/
theorem C5_counterexample :
    dump_compress_encode (.int 1) false (some (-1)) = .ok (.chunks []) := rfl

theorem C5_witness : chunkSplit ['a'] 0 = .error .valueError
    ∧ chunkSplit ['a'] (-1) = .ok [] :=
  ⟨(C5_chunk_size_validation ['a'] 0).1 rfl,
    (C5_chunk_size_validation ['a'] (-1)).2 (by decide)⟩

/-- C6 (amended): `base64.b64decode` with its default `validate=False`
silently discards an ASCII character outside the base64 alphabet, so
decode treats an input with such a character inserted exactly like the
input without it: no `InvalidEncoding`-style failure occurs. -/
theorem C6_invalid_chars_ignored (s1 s2 : Str) (c : Char) (useJson : Bool)
    (hc : b64val c = Option.none) (hne : c ≠ '=') (hascii : c.toNat < 128) :
    decode_uncompress_load (.str (s1 ++ c :: s2)) useJson
      = decode_uncompress_load (.str (s1 ++ s2)) useJson := by
  simp only [decode_uncompress_load, joinPy_str, b64decode_skip s1 s2 c hc hne hascii]

/-- C6 counterexample: `#` is outside the base64 alphabet, yet an encoded
text with `#` inserted still decodes silently to the original value. -/
theorem C6_counterexample :
    b64val '#' = Option.none
      ∧ decode_uncompress_load
          (.str ('#' :: b64encode (zlibCompress ((jdumpV (.int 1)).map Char.toNat))))
          true = .ok (.int 1) :=
  ⟨rfl, rfl⟩

theorem C6_witness :
    b64val '#' = Option.none ∧ '#' ≠ '=' ∧ Char.toNat '#' < 128
      ∧ decode_uncompress_load (.str ([] ++ '#' :: ['A', 'A', 'A', 'A'])) true
        = decode_uncompress_load (.str ([] ++ ['A', 'A', 'A', 'A'])) true :=
  ⟨rfl, by decide, by decide,
    C6_invalid_chars_ignored [] ['A', 'A', 'A', 'A'] '#' true rfl (by decide)
      (by decide)⟩

/-- C7 (amended): the pipeline's zlib pair round-trips on every byte
sequence (the empty one included), but the named `gzip_compress` raises
`TypeError` on `bytes` input, and on latin-1 `str` input the pair returns
the latin-1 bytes of the string, not the string. -/
theorem C7_compressor_pair (d : Bytes) (s : Str)
    (hs : s.all (fun c => c.toNat < 256) = true) :
    zlibDecompress (zlibCompress d) = .ok d
      ∧ gzip_compress (.bytes d) = .error .typeError
      ∧ ∃ g, gzip_compress (.str s) = .ok g
          ∧ gzip_decompress g = .ok (s.map Char.toNat) := by
  refine ⟨zlibDecompress_zlibCompress d, rfl, gzipLibCompress (s.map Char.toNat), ?_, ?_⟩
  · rw [gzip_compress, latin1Encode, if_pos hs]
  · exact gzipLibDecompress_gzipLibCompress _

/-- C7 counterexample: on a byte-sequence input — the empty one — the
named gzip pair does not round-trip; `gzip_compress` raises `TypeError`. -/
theorem C7_counterexample : gzip_compress (.bytes []) = .error .typeError := rfl

theorem C7_witness : (['a'].all (fun c => c.toNat < 256) = true)
    ∧ (zlibDecompress (zlibCompress []) = .ok []
      ∧ gzip_compress (.bytes []) = .error .typeError
      ∧ ∃ g, gzip_compress (.str ['a']) = .ok g
          ∧ gzip_decompress g = .ok (['a'].map Char.toNat)) :=
  ⟨by decide, C7_compressor_pair [] ['a'] (by decide)⟩

/-- The position-weighted sum the Adler-32 second component accumulates. -/
def adlerW : Bytes → Nat
  | [] => 0
  | c :: l => (l.length + 1) * c + adlerW l

theorem adler_foldl_fst : ∀ (l : Bytes) (a b : Nat), a < 65521 →
    (l.foldl adlerStep (a, b)).1 = (a + l.sum) % 65521
  | [], a, b, ha => by
    simp [Nat.mod_eq_of_lt ha]
  | c :: l, a, b, ha => by
    rw [List.foldl_cons]
    show (l.foldl adlerStep ((a + c) % 65521, (b + (a + c) % 65521) % 65521)).1 = _
    rw [adler_foldl_fst l _ _ (Nat.mod_lt _ (by omega))]
    simp only [List.sum_cons]
    omega

theorem adler_foldl_snd : ∀ (l : Bytes) (a b : Nat), a < 65521 → b < 65521 →
    (l.foldl adlerStep (a, b)).2 = (b + l.length * a + adlerW l) % 65521
  | [], a, b, _, hb => by
    simp [adlerW, Nat.mod_eq_of_lt hb]
  | c :: l, a, b, ha, hb => by
    rw [List.foldl_cons]
    show (l.foldl adlerStep ((a + c) % 65521, (b + (a + c) % 65521) % 65521)).2 = _
    rw [adler_foldl_snd l _ _ (Nat.mod_lt _ (by omega)) (Nat.mod_lt _ (by omega))]
    have hmul : (l.length * ((a + c) % 65521)) % 65521
        = (l.length * (a + c)) % 65521 :=
      Nat.ModEq.mul_left _ (Nat.mod_modEq _ _)
    have e1 : l.length * (a + c) = l.length * a + l.length * c := by ring
    have e2 : (l.length + 1) * a = l.length * a + a := by ring
    have e3 : (l.length + 1) * c = l.length * c + c := by ring
    have hW : adlerW (c :: l) = (l.length + 1) * c + adlerW l := rfl
    simp only [List.length_cons, hW]
    omega

/-- Closed form of the Adler-32 state. -/
theorem adler32_char (l : Bytes) :
    adler32 l = ((1 + l.sum) % 65521, (l.length + adlerW l) % 65521) := by
  unfold adler32
  refine Prod.ext ?_ ?_
  · exact adler_foldl_fst l 1 0 (by omega)
  · rw [adler_foldl_snd l 1 0 (by omega) (by omega)]
    congr 1
    ring

theorem adlerW_append : ∀ X Y : Bytes,
    adlerW (X ++ Y) = adlerW X + X.sum * Y.length + adlerW Y
  | [], Y => by simp [adlerW]
  | c :: X, Y => by
    simp only [List.cons_append, adlerW, List.append_eq, adlerW_append X Y,
      List.length_append, List.sum_cons]
    ring

/-- The Adler-32 trailer is invariant under swapping two equal-length,
equal-sum byte segments of the payload (a library fact about the real
checksum; the weighted sum changes by the position offset times the
segment-sum difference, which is zero here). -/
theorem adler32_swap_invariant (pre mid post A B : Bytes)
    (hlen : A.length = B.length) (hsum : A.sum = B.sum) :
    adlerBytes (pre ++ (A ++ (mid ++ (B ++ post))))
      = adlerBytes (pre ++ (B ++ (mid ++ (A ++ post)))) := by
  have h1 : adler32 (pre ++ (A ++ (mid ++ (B ++ post))))
      = adler32 (pre ++ (B ++ (mid ++ (A ++ post)))) := by
    rw [adler32_char, adler32_char]
    have e1 : (pre ++ (A ++ (mid ++ (B ++ post)))).sum
        = (pre ++ (B ++ (mid ++ (A ++ post)))).sum := by
      simp only [List.sum_append]
      omega
    have e2 : (pre ++ (A ++ (mid ++ (B ++ post)))).length
        = (pre ++ (B ++ (mid ++ (A ++ post)))).length := by
      simp only [List.length_append]
      omega
    have e3 : adlerW (pre ++ (A ++ (mid ++ (B ++ post))))
        = adlerW (pre ++ (B ++ (mid ++ (A ++ post)))) := by
      simp only [adlerW_append, List.length_append, List.sum_append]
      rw [hlen, hsum]
      ring
    rw [e1, e2, e3]
  rw [adlerBytes, adlerBytes, h1]

/-- C9: whenever a positive chunk size is supplied and the encoded text
fits in one chunk, encode returns the one-element list holding the full
text, never the bare string. -/
theorem C9_single_chunk (v : PyVal) (useJson : Bool) (n : Int) (hn : 0 < n) (p : Str)
    (hp : dump_compress_encode v useJson Option.none = .ok (.text p))
    (hlen : p.length ≤ n.toNat) :
    dump_compress_encode v useJson (some n) = .ok (.chunks [p]) := by
  rw [encode_text] at hp
  simp only [Except.ok.injEq, EncOut.text.injEq] at hp
  subst hp
  rw [encode_chunks v useJson n hn]
  have hL1 : 1 ≤ (b64encode (zlibCompress (if useJson then (jdumpV v).map Char.toNat
      else pickleDumps v))).length := by
    have hne : b64encode (zlibCompress (if useJson then (jdumpV v).map Char.toNat
        else pickleDumps v)) ≠ [] :=
      b64encode_ne_nil 0x78 _
    cases hcs : b64encode (zlibCompress (if useJson then (jdumpV v).map Char.toNat
        else pickleDumps v)) with
    | nil => exact absurd hcs hne
    | cons a l => simp
  have hk : ((b64encode (zlibCompress (if useJson then (jdumpV v).map Char.toNat
      else pickleDumps v))).length + n.toNat - 1) / n.toNat = 1 := by
    apply Nat.div_eq_of_lt_le
    · omega
    · omega
  rw [hk]
  have hr : List.range' 0 1 n.toNat = [0] := rfl
  rw [hr]
  simp only [List.map_cons, List.map_nil, List.drop_zero]
  rw [List.take_of_length_le hlen]

theorem C9_witness : (0 : Int) < 100
    ∧ (b64encode (zlibCompress ((jdumpV (.int 1)).map Char.toNat))).length ≤ Int.toNat 100
    ∧ dump_compress_encode (.int 1) true (some 100)
      = .ok (.chunks [b64encode (zlibCompress ((jdumpV (.int 1)).map Char.toNat))]) :=
  ⟨by decide, by decide,
    C9_single_chunk (.int 1) true 100 (by decide)
      (b64encode (zlibCompress ((jdumpV (.int 1)).map Char.toNat))) rfl (by decide)⟩

/-- C10 (amended): for string elements the conversion loop indeed has no
effect and `join` returns `with_str.join(data)`; but a `bytes` element
always makes `join` raise — `TypeError` from `str.join`, or already
`UnicodeDecodeError` from the loop's `x.decode('utf-8')` — so it is not
always the type error the original claim states. -/
theorem C10_join_behaviour (ss : List Str) (sep : Str) (l : List PyStrBytes)
    (b : Bytes) (hb : PyStrBytes.bytes b ∈ l) :
    joinPy (.list (ss.map PyStrBytes.str)) sep = strJoin sep (ss.map PyStrBytes.str)
      ∧ ∃ e, joinPy (.list l) sep = .error e := by
  constructor
  · rw [joinPy, joinLoop_str_map]
  · obtain ⟨e, he⟩ := strJoin_bytes sep l b hb
    rw [joinPy]
    cases hjl : joinLoop l with
    | ok r =>
      exact ⟨e, he⟩
    | error e2 =>
      exact ⟨e2, rfl⟩

/-- C10 counterexample: a chunk list holding invalid-UTF-8 `bytes` makes
decode raise `UnicodeDecodeError` from the conversion loop — the loop does
affect the result, and the failure is not the claimed type error. -/
theorem C10_counterexample :
    decode_uncompress_load (.list [.bytes [0x80]])
      false = .error .unicodeDecodeError
      ∧ PyErr.unicodeDecodeError ≠ PyErr.typeError :=
  ⟨rfl, by decide⟩

theorem C10_witness :
    (PyStrBytes.bytes [0x80] ∈ [PyStrBytes.bytes [0x80]])
      ∧ (joinPy (.list ([['a']].map PyStrBytes.str)) []
          = strJoin [] ([['a']].map PyStrBytes.str)
        ∧ ∃ e, joinPy (.list [PyStrBytes.bytes [0x80]]) [] = .error e) :=
  ⟨List.mem_singleton.mpr rfl,
    C10_join_behaviour [['a']] [] [PyStrBytes.bytes [0x80]] [0x80]
      (List.mem_singleton.mpr rfl)⟩

end StarCluster
